import Mathlib

/-!
Winnowing fingerprints (`src/winnowing.c`)

A shallow embedding of the winnowing routine and of its helpers.

* Memory blocks (`gram_buffer`, `window_buffer`, the caller's `hashes` and
  `lines`) are lists of cells; a pointer into a block is an offset.  Every
  access is bounds-checked: an access outside the block makes the whole
  computation `none`.
* `uint32_t` values are naturals; the counters that depend on the data
  (`line`, `counter`, `src_len`) are reduced modulo `2 ^ 32`.
* The checksum `calc_crc32c` lives in `external/crc32c/crc32c.c`, which is
  not part of the sources at hand; it is a parameter of the development.
* `malloc` returns a block of the requested size whose initial contents are
  arbitrary; they are given by a parameter (`junk`).
-/

namespace Winnowing

/-! ## Constants and machine values -/

/-- `#define BUFFER_RATE 4`. -/
def BUFFER_RATE : Nat := 4

/-- `uint32_t MAX_UINT32 = 4294967295;`. -/
def MAX_UINT32 : Nat := 4294967295

/-- Reduction of a value to `uint32_t`. -/
def u32 (n : Nat) : Nat := n % 4294967296

/-- The value `(uint32_t)(n - 1)` for `n` a `uint8_t` promoted to `int`:
`GRAM - 1` and `WINDOW - 1` in the source. -/
def dec (n : Nat) : Nat := if n = 0 then MAX_UINT32 else n - 1

/-- The external checksum, with its `uint32_t` result type. -/
def crc32 (calc_crc32c : List Nat → Nat) (data : List Nat) : Nat :=
  u32 (calc_crc32c data)

/-- The four bytes of a `uint32_t` in memory (least significant first), the
span `(char *)&hash, 4` that is handed to the checksum. -/
def raw_bytes (hash : Nat) : List Nat :=
  [hash % 256, hash / 256 % 256, hash / 65536 % 256, hash / 16777216 % 256]

/-! ## Memory -/

/-- Write of one cell: `buf[i] = v`. -/
def store (buf : List Nat) (i v : Nat) : Option (List Nat) :=
  if i < buf.length then some (buf.set i v) else none

/-- Read of one cell: `buf[i]`. -/
def load (buf : List Nat) (i : Nat) : Option Nat := buf[i]?

/-- Read of the `len` cells that start at `off`. -/
def read_span (buf : List Nat) (off len : Nat) : Option (List Nat) :=
  if off + len ≤ buf.length then some ((buf.drop off).take len) else none

/-- A freshly allocated block of `n` cells. -/
def malloc (n : Nat) (junk : Nat → Nat) : List Nat := (List.range n).map junk

/-- Length of a C string: the number of bytes before the first NUL (the end of
the list stands for the terminator when the list holds none). -/
def strlen : List Nat → Nat
  | [] => 0
  | c :: rest => if c = 0 then 0 else strlen rest + 1

/-! ## The helpers of `winnowing.c` -/

/-- `uint8_t normalize (uint8_t byte)`. -/
def normalize (byte : Nat) : Nat :=
  if byte < 48 then 0
  else if byte > 122 then 0
  else if byte ≤ 57 then byte
  else if byte ≥ 97 then byte
  else if byte ≥ 65 ∧ byte ≤ 90 then (byte + 32) % 256
  else 0

/-- The copy loop of `shift_window` and `shift_gram`:
`for (i = ...; i < ...; i++) p[i] = p[i + k];` with `n` iterations left,
`p` at offset `base`. -/
def copy_loop (base k : Nat) : Nat → Nat → List Nat → Option (List Nat)
  | 0, _, buf => some buf
  | n + 1, i, buf =>
    match load buf (base + (i + k)) with
    | none => none
    | some v =>
      match store buf (base + i) v with
      | none => none
      | some buf1 => copy_loop base k n (i + 1) buf1

/-- `uint32_t* shift_window(uint32_t *window, uint32_t *window_buffer)`:
returns the new pointer (as an offset) and the buffer. -/
def shift_window (WINDOW : Nat) (window : Nat) (window_buffer : List Nat) :
    Option (Nat × List Nat) :=
  let window := window + 1
  if window ≥ (BUFFER_RATE - 1) * WINDOW then
    let window := window - (BUFFER_RATE - 1) * WINDOW
    match copy_loop window ((BUFFER_RATE - 1) * WINDOW) (dec WINDOW) 0 window_buffer with
    | none => none
    | some buf => some (window, buf)
  else some (window, window_buffer)

/-- `uint8_t* shift_gram(uint8_t *gram, uint8_t *gram_buffer)`. -/
def shift_gram (GRAM : Nat) (gram : Nat) (gram_buffer : List Nat) :
    Option (Nat × List Nat) :=
  let gram := gram + 1
  if gram ≥ (BUFFER_RATE - 1) * GRAM then
    let gram := gram - (BUFFER_RATE - 1) * GRAM
    match copy_loop gram ((BUFFER_RATE - 1) * GRAM) (dec GRAM) 0 gram_buffer with
    | none => none
    | some buf => some (gram, buf)
  else some (gram, gram_buffer)

/-- The scan of `smaller_hash`, with `n` iterations left at index `h`. -/
def smaller_hash_loop (buf : List Nat) (window : Nat) : Nat → Nat → Nat → Option Nat
  | 0, _, hash => some hash
  | n + 1, h, hash =>
    match load buf (window + h) with
    | none => none
    | some v => smaller_hash_loop buf window n (h + 1) (if v < hash then v else hash)

/-- `uint32_t smaller_hash(uint32_t *window)`. -/
def smaller_hash (WINDOW : Nat) (window_buffer : List Nat) (window : Nat) : Option Nat :=
  smaller_hash_loop window_buffer window WINDOW 0 MAX_UINT32

/-- `uint32_t add_hash(hash, line, hashes, lines, last, counter)`: returns the
new `last`, the two arrays and the counter. -/
def add_hash (calc_crc32c : List Nat → Nat) (hash line : Nat) (hashes lines : List Nat)
    (last counter : Nat) : Option (Nat × List Nat × List Nat × Nat) :=
  if hash ≠ last then
    match store hashes counter (crc32 calc_crc32c (raw_bytes hash)) with
    | none => none
    | some hashes1 =>
      match store lines counter line with
      | none => none
      | some lines1 => some (hash, hashes1, lines1, u32 (counter + 1))
  else some (last, hashes, lines, counter)

/-! ## The main routine -/

/-- The local variables of `winnowing` together with the memory it works on. -/
structure State where
  line : Nat
  counter : Nat
  hash : Nat
  last : Nat
  gram_buffer : List Nat
  gram : Nat
  gram_ptr : Nat
  window_buffer : List Nat
  window : Nat
  window_ptr : Nat
  hashes : List Nat
  lines : List Nat
deriving DecidableEq

/-- The body of `if (window_ptr >= WINDOW)`: select the minimum, hand it to
`add_hash`, leave the loop when the limit is reached, else shift the window. -/
def on_window (calc_crc32c : List Nat → Nat) (WINDOW limit : Nat) (s : State) :
    Option (Bool × State) :=
  match smaller_hash WINDOW s.window_buffer s.window with
  | none => none
  | some hash =>
    match add_hash calc_crc32c hash s.line s.hashes s.lines s.last s.counter with
    | none => none
    | some (last, hashes, lines, counter) =>
      let s := { s with hash := hash, last := last, hashes := hashes, lines := lines,
                        counter := counter }
      if counter ≥ limit then some (true, s)
      else
        match shift_window WINDOW s.window s.window_buffer with
        | none => none
        | some (window, wb) =>
          some (false, { s with window := window, window_buffer := wb,
                                window_ptr := dec WINDOW })

/-- The body of `if (gram_ptr >= GRAM)`: checksum the gram into the window,
treat a full window, then shift the gram. -/
def on_gram (calc_crc32c : List Nat → Nat) (GRAM WINDOW limit : Nat) (s : State) :
    Option (Bool × State) :=
  match read_span s.gram_buffer s.gram GRAM with
  | none => none
  | some span =>
    match store s.window_buffer (s.window + s.window_ptr) (crc32 calc_crc32c span) with
    | none => none
    | some wb =>
      let s := { s with window_buffer := wb, window_ptr := s.window_ptr + 1 }
      match (if s.window_ptr ≥ WINDOW then on_window calc_crc32c WINDOW limit s
             else some (false, s)) with
      | none => none
      | some (true, s) => some (true, s)
      | some (false, s) =>
        match shift_gram GRAM s.gram s.gram_buffer with
        | none => none
        | some (gram, gb) =>
          some (false, { s with gram := gram, gram_buffer := gb, gram_ptr := dec GRAM })

/-- The part of the loop body that handles a significant byte: add it to the
gram and treat a full gram. -/
def on_byte (calc_crc32c : List Nat → Nat) (GRAM WINDOW limit : Nat) (byte : Nat) (s : State) :
    Option (Bool × State) :=
  match store s.gram_buffer (s.gram + s.gram_ptr) byte with
  | none => none
  | some gb =>
    let s := { s with gram_buffer := gb, gram_ptr := s.gram_ptr + 1 }
    if s.gram_ptr ≥ GRAM then on_gram calc_crc32c GRAM WINDOW limit s
    else some (false, s)

/-- One iteration of the `for` loop on the byte `c = src[i]`.  The boolean is
`true` when the iteration leaves the loop through `break`. -/
def body (calc_crc32c : List Nat → Nat) (GRAM WINDOW limit : Nat) (c : Nat) (s : State) :
    Option (Bool × State) :=
  let s := if c = 10 then { s with line := u32 (s.line + 1) } else s
  let byte := normalize c
  if byte = 0 then some (false, s)
  else on_byte calc_crc32c GRAM WINDOW limit byte s

/-- The `for` loop over the bytes `src[0 .. src_len)`. -/
def loop (calc_crc32c : List Nat → Nat) (GRAM WINDOW limit : Nat) :
    List Nat → State → Option State
  | [], s => some s
  | c :: rest, s =>
    match body calc_crc32c GRAM WINDOW limit c s with
    | none => none
    | some (true, s1) => some s1
    | some (false, s1) => loop calc_crc32c GRAM WINDOW limit rest s1

/-- The state at the entry of the loop. -/
def init (GRAM WINDOW : Nat) (junk_gram junk_window : Nat → Nat) (hashes lines : List Nat) :
    State :=
  { line := 1, counter := 0, hash := MAX_UINT32, last := 0,
    gram_buffer := malloc (GRAM * BUFFER_RATE) junk_gram, gram := 0, gram_ptr := 0,
    window_buffer := malloc (WINDOW * BUFFER_RATE) junk_window, window := 0, window_ptr := 0,
    hashes := hashes, lines := lines }

/-- The bytes the loop visits: `src[i]` for `i < src_len`, where
`uint32_t src_len = strlen(src)`. -/
def scanned (src : List Nat) : List Nat := src.take (u32 (strlen src))

/-- `uint32_t winnowing (char *src, uint32_t *hashes, uint32_t *lines, uint32_t limit)`:
the returned count and the final contents of `hashes` and `lines`. -/
def winnowing (calc_crc32c : List Nat → Nat) (GRAM WINDOW : Nat)
    (junk_gram junk_window : Nat → Nat) (src hashes lines : List Nat) (limit : Nat) :
    Option (Nat × List Nat × List Nat) :=
  match loop calc_crc32c GRAM WINDOW limit (scanned src)
      (init GRAM WINDOW junk_gram junk_window hashes lines) with
  | none => none
  | some s => some (s.counter, s.hashes, s.lines)

/-! ## The reference pipeline

The fingerprint as the specification describes it, computed stage by stage on
whole sequences. -/

/-- The significant bytes: the non-zero values of `normalize` over the bytes of
`src`, in order. -/
def ref_bytes (src : List Nat) : List Nat :=
  (src.map normalize).filter (fun b => b ≠ 0)

/-- The raw positions of the significant bytes. -/
def sig_positions (src : List Nat) : List Nat :=
  (List.range src.length).filter (fun i => normalize (src.getD i 0) ≠ 0)

/-- The 1-based line of raw position `i`: one more than the number of newline
bytes at positions up to `i`. -/
def line_at (src : List Nat) (i : Nat) : Nat := 1 + (src.take (i + 1)).count 10

/-- The line of every significant byte. -/
def ref_lines (src : List Nat) : List Nat := (sig_positions src).map (line_at src)

/-- All runs `l[i .. i + k)` with `i + k ≤ |l|`, in order. -/
def windows_of (k : Nat) (l : List Nat) : List (List Nat) :=
  (List.range (l.length + 1 - k)).map (fun i => (l.drop i).take k)

/-- The minimum of a non-empty list. -/
def list_min : List Nat → Nat
  | [] => 0
  | x :: xs => xs.foldl min x

/-- The checksums `c_k` of the grams `n[k .. k + GRAM)`. -/
def ref_grams (calc_crc32c : List Nat → Nat) (GRAM : Nat) (n : List Nat) : List Nat :=
  (windows_of GRAM n).map (crc32 calc_crc32c)

/-- The minima `m_j` of the windows `c[j .. j + WINDOW)`. -/
def ref_minima (WINDOW : Nat) (c : List Nat) : List Nat :=
  (windows_of WINDOW c).map list_min

/-- The window minima of an input. -/
def ref_mins (calc_crc32c : List Nat → Nat) (GRAM WINDOW : Nat) (src : List Nat) : List Nat :=
  ref_minima WINDOW (ref_grams calc_crc32c GRAM (ref_bytes src))

/-- Every window minimum with the line at the point where its window is
complete: window `j` ends with gram `j + WINDOW - 1`, which ends with the
significant byte `j + (GRAM - 1) + (WINDOW - 1)`. -/
def ref_windows (calc_crc32c : List Nat → Nat) (GRAM WINDOW : Nat) (src : List Nat) :
    List (Nat × Nat) :=
  List.zip (ref_mins calc_crc32c GRAM WINDOW src)
    ((ref_lines src).drop ((GRAM - 1) + (WINDOW - 1)))

/-- The walk over the windows: an entry (checksum of the four bytes of the
minimum, line) is emitted exactly when the minimum differs from `last`, which
then becomes that minimum. -/
def ref_walk (calc_crc32c : List Nat → Nat) : Nat → List (Nat × Nat) → List (Nat × Nat)
  | _, [] => []
  | last, (m, line) :: rest =>
    if m ≠ last then (crc32 calc_crc32c (raw_bytes m), line) :: ref_walk calc_crc32c m rest
    else ref_walk calc_crc32c last rest

/-- All emissions of an input, `last` starting at 0. -/
def ref_emissions (calc_crc32c : List Nat → Nat) (GRAM WINDOW : Nat) (src : List Nat) :
    List (Nat × Nat) :=
  ref_walk calc_crc32c 0 (ref_windows calc_crc32c GRAM WINDOW src)

/-- The result of the reference pipeline under a limit: the count, and the two
caller arrays with their first `count` cells overwritten by the emissions. -/
def ref_result (calc_crc32c : List Nat → Nat) (GRAM WINDOW : Nat)
    (src hashes lines : List Nat) (limit : Nat) : Nat × List Nat × List Nat :=
  let e := (ref_emissions calc_crc32c GRAM WINDOW src).take limit
  (e.length, e.map Prod.fst ++ hashes.drop e.length, e.map Prod.snd ++ lines.drop e.length)

/-- A C string as the routine can receive it: no NUL byte inside, and a length
that fits `uint32_t src_len`. -/
def c_string (src : List Nat) : Prop := 0 ∉ src ∧ src.length < 4294967296

instance (src : List Nat) : Decidable (c_string src) := by
  unfold c_string; infer_instance

/-! ## Auxiliary notions for the proofs -/

/-- The cells `buf[off .. off + len)`. -/
def view (buf : List Nat) (off len : Nat) : List Nat := (buf.drop off).take len

/-- The last `k` elements of a list (all of it when it is shorter). -/
def lastN (k : Nat) (l : List Nat) : List Nat := l.drop (l.length - k)

/-- The buffer `buf` of `4 * K` cells, read through the pointer `off` with
`ptr` cells filled, holds the last `ptr = min |hist| (K - 1)` values of the
history `hist`. -/
def Ring (K : Nat) (buf : List Nat) (off ptr : Nat) (hist : List Nat) : Prop :=
  buf.length = 4 * K ∧ off < 3 * K ∧ ptr = min hist.length (K - 1) ∧
    view buf off ptr = lastN ptr hist

/-- The output side of the state after the bytes `p`: the counter and the two
arrays hold the emissions of `p`. -/
structure Out (crc : List Nat → Nat) (G W : Nat) (hashes0 lines0 : List Nat)
    (p : List Nat) (s : State) : Prop where
  counter : s.counter = (ref_emissions crc G W p).length
  hashes : s.hashes = (ref_emissions crc G W p).map Prod.fst ++
    hashes0.drop (ref_emissions crc G W p).length
  lines : s.lines = (ref_emissions crc G W p).map Prod.snd ++
    lines0.drop (ref_emissions crc G W p).length

/-- The loop invariant after the bytes `p`, the limit not being reached. -/
structure Inv (crc : List Nat → Nat) (G W limit : Nat) (hashes0 lines0 : List Nat)
    (p : List Nat) (s : State) : Prop where
  line : s.line = u32 (1 + p.count 10)
  gram : Ring G s.gram_buffer s.gram s.gram_ptr (ref_bytes p)
  window : Ring W s.window_buffer s.window s.window_ptr (ref_grams crc G (ref_bytes p))
  last : s.last = ((ref_windows crc G W p).map Prod.fst).getLastD 0
  below : (ref_emissions crc G W p).length < limit
  out : Out crc G W hashes0 lines0 p s

/-- The number of maximal runs of equal consecutive values. -/
def runs : List Nat → Nat
  | [] => 0
  | [_] => 1
  | x :: y :: rest => (if x = y then 0 else 1) + runs (y :: rest)

/-- The hashes the walk emits, as a function of the window minima alone. -/
def walk_hashes (calc_crc32c : List Nat → Nat) : Nat → List Nat → List Nat
  | _, [] => []
  | last, m :: rest =>
    if m ≠ last then crc32 calc_crc32c (raw_bytes m) :: walk_hashes calc_crc32c m rest
    else walk_hashes calc_crc32c last rest

/-- The indices of the windows that trigger an emission: window `j` (counted
from `j0`) does when its minimum differs from `last` at that point. -/
def ref_emitting : Nat → Nat → List Nat → List Nat
  | _, _, [] => []
  | last, j, m :: rest =>
    if m ≠ last then j :: ref_emitting m (j + 1) rest else ref_emitting last (j + 1) rest

/-- The first `count` cells of `ls` are at least 1, non-decreasing, and at most `top`. -/
def LinesBelow (count : Nat) (ls : List Nat) (top : Nat) : Prop :=
  ∀ i j, i ≤ j → j < count →
    ∃ a b, ls[i]? = some a ∧ ls[j]? = some b ∧ 1 ≤ a ∧ a ≤ b ∧ b ≤ top

/-- The counter is at most `k`, the two arrays have kept their lengths, and
their cells at indices `≥ counter` hold what the caller supplied. -/
def Frame (hashes0 lines0 : List Nat) (k counter : Nat) (hs ls : List Nat) : Prop :=
  counter ≤ k ∧ hs.length = hashes0.length ∧ ls.length = lines0.length ∧
    ∀ i, counter ≤ i → hs[i]? = hashes0[i]? ∧ ls[i]? = lines0[i]?

/-! ## Sample data for concrete instances -/

/-- A small checksum used to instantiate the external primitive. -/
def sample_crc (data : List Nat) : Nat := data.foldl (fun a b => (a * 31 + b) % 65521) 7

/-- The bytes of `"Ab\ncd\nEf"`. -/
def sample_src : List Nat := [65, 98, 10, 99, 100, 10, 69, 102]

theorem getElem?_view (buf : List Nat) (off len j : Nat) :
    (view buf off len)[j]? = if j < len then buf[off + j]? else none := by
  unfold view
  rw [List.getElem?_take]
  split
  · rw [List.getElem?_drop]
  · rfl

theorem length_view (buf : List Nat) (off len : Nat) (h : off + len ≤ buf.length) :
    (view buf off len).length = len := by
  unfold view
  simp
  omega

theorem store_eq_some (buf : List Nat) (i v : Nat) (h : i < buf.length) :
    store buf i v = some (buf.set i v) := by
  simp [store, h]

theorem view_set_snoc (buf : List Nat) (off len v : Nat) (h : off + len < buf.length) :
    view (buf.set (off + len) v) off (len + 1) = view buf off len ++ [v] := by
  apply List.ext_getElem?
  intro j
  rw [getElem?_view, List.getElem?_append, getElem?_view, length_view _ _ _ (by omega),
    List.getElem?_set]
  by_cases h1 : j < len
  · have h2 : ¬ (off + len = off + j) := by omega
    simp [h1, h2, Nat.lt_succ_of_lt h1]
  · by_cases h2 : j = len
    · subst h2
      simp [h]
    · have h3 : ¬ (j < len + 1) := by omega
      have h4 : len ≤ j := by omega
      have h5 : j - len ≠ 0 := by omega
      simp [h1, h3]
      omega

theorem view_succ_off (buf : List Nat) (off len : Nat) :
    view buf (off + 1) len = (view buf off (len + 1)).tail := by
  apply List.ext_getElem?
  intro j
  rw [List.getElem?_tail, getElem?_view, getElem?_view]
  by_cases h1 : j < len
  · have h2 : j + 1 < len + 1 := by omega
    simp [h1, h2]
    congr 1
    omega
  · have h2 : ¬ (j + 1 < len + 1) := by omega
    simp [h1, h2]

theorem copy_loop_spec (base k : Nat) :
    ∀ (n i : Nat) (buf : List Nat), base + (i + k) + n ≤ buf.length → i + n ≤ k →
      ∃ buf1, copy_loop base k n i buf = some buf1 ∧ buf1.length = buf.length ∧
        ∀ j, buf1[j]? = if base + i ≤ j ∧ j < base + i + n then buf[j + k]? else buf[j]? := by
  intro n
  induction n with
  | zero =>
    intro i buf _ _
    refine ⟨buf, rfl, rfl, ?_⟩
    intro j
    have : ¬ (base + i ≤ j ∧ j < base + i + 0) := by omega
    rw [if_neg this]
  | succ n ih =>
    intro i buf hb hk
    have hl : base + (i + k) < buf.length := by omega
    have hs : base + i < buf.length := by omega
    obtain ⟨buf1, h1, h2, h3⟩ := ih (i + 1) (buf.set (base + i) (buf[base + (i + k)])) (by
      simp only [List.length_set]; omega) (by omega)
    refine ⟨buf1, ?_, ?_, ?_⟩
    · simp only [copy_loop, load, List.getElem?_eq_getElem hl, store_eq_some _ _ _ hs]
      exact h1
    · rw [h2, List.length_set]
    · intro j
      rw [h3 j]
      by_cases c1 : base + (i + 1) ≤ j ∧ j < base + (i + 1) + n
      · have c2 : base + i ≤ j ∧ j < base + i + (n + 1) := by omega
        have c3 : ¬ (base + i = j + k) := by omega
        rw [if_pos c1, if_pos c2, List.getElem?_set, if_neg c3]
      · rw [if_neg c1]
        by_cases c4 : j = base + i
        · have c2 : base + i ≤ j ∧ j < base + i + (n + 1) := by omega
          rw [if_pos c2, List.getElem?_set, if_pos c4.symm, if_pos (by omega)]
          subst c4
          rw [List.getElem?_eq_getElem (by omega)]
          congr 2
          omega
        · have c2 : ¬ (base + i ≤ j ∧ j < base + i + (n + 1)) := by omega
          rw [if_neg c2, List.getElem?_set, if_neg (by omega)]

theorem view_cons (buf : List Nat) (off len : Nat) (h : off < buf.length) :
    view buf off (len + 1) = buf[off] :: view buf (off + 1) len := by
  unfold view
  rw [List.drop_eq_getElem_cons h, List.take_succ_cons]

theorem shift_gram_spec (K off : Nat) (buf : List Nat) (hK : 1 ≤ K)
    (hlen : buf.length = 4 * K) (hoff : off < 3 * K) :
    ∃ off1 buf1, shift_gram K off buf = some (off1, buf1) ∧ off1 < 3 * K ∧
      buf1.length = 4 * K ∧ view buf1 off1 (K - 1) = view buf (off + 1) (K - 1) := by
  have e3 : (BUFFER_RATE - 1) * K = 3 * K := rfl
  have ed : dec K = K - 1 := by
    unfold dec
    rw [if_neg (by omega)]
  by_cases h : off + 1 ≥ 3 * K
  · have h0 : off + 1 - 3 * K = 0 := by omega
    obtain ⟨buf1, h1, h2, h3⟩ := copy_loop_spec 0 (3 * K) (K - 1) 0 buf (by omega) (by omega)
    refine ⟨0, buf1, ?_, by omega, by omega, ?_⟩
    · simp only [shift_gram, e3, ed, if_pos h, h0, h1]
    · apply List.ext_getElem?
      intro j
      rw [getElem?_view, getElem?_view, h3]
      by_cases c : j < K - 1
      · have c1 : 0 + 0 ≤ 0 + j ∧ 0 + j < 0 + 0 + (K - 1) := by omega
        rw [if_pos c, if_pos c, if_pos c1]
        congr 1
        omega
      · rw [if_neg c, if_neg c]
  · refine ⟨off + 1, buf, ?_, by omega, hlen, rfl⟩
    simp only [shift_gram, e3, if_neg h]

theorem shift_window_eq_shift_gram : shift_window = shift_gram := rfl

theorem smaller_hash_loop_spec (buf : List Nat) (window : Nat) :
    ∀ (n h hash : Nat), window + h + n ≤ buf.length →
      smaller_hash_loop buf window n h hash =
        some ((view buf (window + h) n).foldl (fun acc v => if v < acc then v else acc) hash) := by
  intro n
  induction n with
  | zero =>
    intro h hash _
    simp [smaller_hash_loop, view]
  | succ n ih =>
    intro h hash hb
    have hl : window + h < buf.length := by omega
    rw [view_cons _ _ _ hl]
    simp only [smaller_hash_loop, load, List.getElem?_eq_getElem hl, List.foldl_cons]
    rw [ih (h + 1) _ (by omega)]
    rfl

theorem foldl_sel_eq_min (xs : List Nat) (x : Nat) :
    xs.foldl (fun acc v => if v < acc then v else acc) x = xs.foldl min x := by
  induction xs generalizing x with
  | nil => rfl
  | cons y ys ih =>
    simp only [List.foldl_cons]
    rw [ih]
    congr 1
    rw [Nat.min_def]
    by_cases c : y < x
    · rw [if_pos c, if_neg (by omega)]
    · rw [if_neg c]
      by_cases c2 : x ≤ y
      · rw [if_pos c2]
      · omega

theorem foldl_sel_max (l : List Nat) (hne : l ≠ []) (hb : ∀ x ∈ l, x ≤ MAX_UINT32) :
    l.foldl (fun acc v => if v < acc then v else acc) MAX_UINT32 = list_min l := by
  cases l with
  | nil => exact absurd rfl hne
  | cons x xs =>
    have hx : x ≤ MAX_UINT32 := hb x (List.mem_cons_self _ _)
    simp only [List.foldl_cons, list_min]
    rw [← foldl_sel_eq_min]
    congr 1
    by_cases c : x < MAX_UINT32
    · rw [if_pos c]
    · rw [if_neg c]
      omega

theorem smaller_hash_spec (W : Nat) (buf : List Nat) (window : Nat) (hW : 1 ≤ W)
    (hlen : window + W ≤ buf.length) (hb : ∀ x ∈ view buf window W, x ≤ MAX_UINT32) :
    smaller_hash W buf window = some (list_min (view buf window W)) := by
  unfold smaller_hash
  rw [smaller_hash_loop_spec buf window W 0 MAX_UINT32 (by omega)]
  have hne : view buf window W ≠ [] := by
    intro h0
    have := length_view buf window W hlen
    rw [h0] at this
    simp at this
    omega
  rw [Nat.add_zero, foldl_sel_max _ hne hb]

/-! ## The minimum of a list -/

theorem foldl_min_le_init (xs : List Nat) : ∀ x, xs.foldl min x ≤ x := by
  induction xs with
  | nil => intro x; exact Nat.le_refl _
  | cons y ys ih =>
    intro x
    exact (ih (min x y)).trans (Nat.min_le_left _ _)

theorem foldl_min_le_mem (xs : List Nat) : ∀ x, ∀ y ∈ xs, xs.foldl min x ≤ y := by
  induction xs with
  | nil =>
    intro x y hy
    simp at hy
  | cons z zs ih =>
    intro x y hy
    rcases List.mem_cons.mp hy with e | e
    · rw [e]
      exact (foldl_min_le_init zs (min x z)).trans (Nat.min_le_right _ _)
    · exact ih (min x z) y e

theorem foldl_min_mem (xs : List Nat) : ∀ x, xs.foldl min x = x ∨ xs.foldl min x ∈ xs := by
  induction xs with
  | nil => intro x; exact Or.inl rfl
  | cons z zs ih =>
    intro x
    rw [List.foldl_cons]
    rcases ih (min x z) with e | e
    · rw [e]
      rcases Nat.le_total x z with c | c
      · rw [Nat.min_eq_left c]
        exact Or.inl rfl
      · rw [Nat.min_eq_right c]
        exact Or.inr (List.mem_cons_self _ _)
    · exact Or.inr (List.mem_cons_of_mem _ e)

/-- The value `list_min l` is a lower bound of `l`. -/
theorem list_min_le (l : List Nat) : ∀ y ∈ l, list_min l ≤ y := by
  cases l with
  | nil =>
    intro y hy
    simp at hy
  | cons x xs =>
    intro y hy
    rcases List.mem_cons.mp hy with e | e
    · rw [e]
      exact foldl_min_le_init xs x
    · exact foldl_min_le_mem xs x y e

/-- The value `list_min l` is an element of the non-empty list `l`. -/
theorem list_min_mem (l : List Nat) (h : l ≠ []) : list_min l ∈ l := by
  cases l with
  | nil => exact absurd rfl h
  | cons x xs =>
    rcases foldl_min_mem xs x with e | e
    · show xs.foldl min x ∈ x :: xs
      rw [e]
      exact List.mem_cons_self _ _
    · exact List.mem_cons_of_mem _ e

/-! ## The tail of a history held in an amortised buffer -/

theorem lastN_of_length_le (k : Nat) (l : List Nat) (h : l.length ≤ k) : lastN k l = l := by
  unfold lastN
  rw [Nat.sub_eq_zero_of_le h, List.drop_zero]

theorem length_lastN (k : Nat) (l : List Nat) : (lastN k l).length = min k l.length := by
  unfold lastN
  rw [List.length_drop]
  omega

theorem lastN_snoc (k : Nat) (l : List Nat) (v : Nat) (h : k ≤ l.length) :
    lastN (k + 1) (l ++ [v]) = lastN k l ++ [v] := by
  unfold lastN
  rw [List.length_append, List.length_singleton, Nat.add_sub_add_right,
    List.drop_append_of_le_length (by omega)]

theorem tail_lastN (k : Nat) (l : List Nat) (h : k + 1 ≤ l.length) :
    (lastN (k + 1) l).tail = lastN k l := by
  unfold lastN
  rw [List.tail_drop]
  congr 1
  omega

theorem Ring.store_some {K : Nat} {buf : List Nat} {off ptr : Nat} {hist : List Nat}
    (h : Ring K buf off ptr hist) (v : Nat) :
    store buf (off + ptr) v = some (buf.set (off + ptr) v) := by
  obtain ⟨h1, h2, h3, _⟩ := h
  exact store_eq_some _ _ _ (by omega)

theorem Ring.push_lt {K : Nat} {buf : List Nat} {off ptr : Nat} {hist : List Nat}
    (h : Ring K buf off ptr hist) (v : Nat) (hp : ptr + 1 < K) :
    Ring K (buf.set (off + ptr) v) off (ptr + 1) (hist ++ [v]) := by
  obtain ⟨h1, h2, h3, h4⟩ := h
  have hl : ptr = hist.length := by omega
  refine ⟨by rw [List.length_set]; exact h1, h2, ?_, ?_⟩
  · rw [List.length_append, List.length_singleton]
    omega
  · rw [view_set_snoc _ _ _ _ (by omega), h4, lastN_snoc _ _ _ (by omega)]

theorem Ring.push_full {K : Nat} {buf : List Nat} {off ptr : Nat} {hist : List Nat}
    (h : Ring K buf off ptr hist) (v : Nat) (hp : K ≤ ptr + 1) :
    K ≤ (hist ++ [v]).length ∧ ptr + 1 = K ∧
      view (buf.set (off + ptr) v) off K = lastN K (hist ++ [v]) := by
  obtain ⟨h1, h2, h3, h4⟩ := h
  have hl : ptr + 1 = K := by omega
  refine ⟨by rw [List.length_append, List.length_singleton]; omega, hl, ?_⟩
  rw [← hl, view_set_snoc _ _ _ _ (by omega), h4, lastN_snoc _ _ _ (by omega)]

theorem Ring.of_shift {K : Nat} {buf : List Nat} {off : Nat} {hist : List Nat} (hK : 1 ≤ K)
    (hlen : buf.length = 4 * K) (hoff : off < 3 * K) (hh : K ≤ hist.length)
    (hv : view buf off K = lastN K hist) :
    ∃ off1 buf1, shift_gram K off buf = some (off1, buf1) ∧ Ring K buf1 off1 (K - 1) hist := by
  obtain ⟨off1, buf1, e1, e2, e3, e4⟩ := shift_gram_spec K off buf hK hlen hoff
  refine ⟨off1, buf1, e1, e3, e2, by omega, ?_⟩
  rw [e4, view_succ_off]
  have : K - 1 + 1 = K := by omega
  rw [this, hv, ← tail_lastN (K - 1) hist (by omega), this]

/-! ## The reference pipeline, one byte at a time -/

theorem ref_bytes_snoc (p : List Nat) (b : Nat) :
    ref_bytes (p ++ [b]) = ref_bytes p ++ (if normalize b ≠ 0 then [normalize b] else []) := by
  unfold ref_bytes
  rw [List.map_append, List.filter_append]
  congr 1
  by_cases h : normalize b = 0 <;> simp [h]

theorem sig_positions_snoc (p : List Nat) (b : Nat) :
    sig_positions (p ++ [b]) =
      sig_positions p ++ (if normalize b ≠ 0 then [p.length] else []) := by
  unfold sig_positions
  rw [List.length_append, List.length_singleton, List.range_succ, List.filter_append]
  congr 1
  · apply List.filter_congr
    intro i hi
    rw [List.mem_range] at hi
    simp [List.getElem?_append_left hi]
  · by_cases h : normalize b = 0 <;> simp [h]

theorem sig_positions_lt (p : List Nat) : ∀ i ∈ sig_positions p, i < p.length := by
  intro i hi
  unfold sig_positions at hi
  exact List.mem_range.mp (List.mem_filter.mp hi).1

theorem line_at_append (p r : List Nat) (i : Nat) (h : i < p.length) :
    line_at (p ++ r) i = line_at p i := by
  unfold line_at
  rw [List.take_append_of_le_length (by omega)]

theorem line_at_length (p : List Nat) (b : Nat) :
    line_at (p ++ [b]) p.length = 1 + (p ++ [b]).count 10 := by
  unfold line_at
  rw [List.take_of_length_le (by simp)]

theorem ref_lines_snoc (p : List Nat) (b : Nat) :
    ref_lines (p ++ [b]) =
      ref_lines p ++ (if normalize b ≠ 0 then [1 + (p ++ [b]).count 10] else []) := by
  unfold ref_lines
  rw [sig_positions_snoc, List.map_append]
  congr 1
  · apply List.map_congr_left
    intro i hi
    exact line_at_append p [b] i (sig_positions_lt p i hi)
  · by_cases h : normalize b = 0
    · simp [h]
    · simp only [ne_eq, h, not_false_eq_true, if_true, List.map_cons, List.map_nil,
        line_at_length]

theorem length_ref_lines (p : List Nat) : (ref_lines p).length = (ref_bytes p).length := by
  induction p using List.reverseRecOn with
  | nil => rfl
  | append_singleton p b ih =>
    rw [ref_lines_snoc, ref_bytes_snoc, List.length_append, List.length_append, ih]
    by_cases h : normalize b = 0 <;> simp [h]

theorem length_windows_of (k : Nat) (l : List Nat) :
    (windows_of k l).length = l.length + 1 - k := by
  unfold windows_of
  rw [List.length_map, List.length_range]

theorem windows_of_snoc (k : Nat) (hk : 1 ≤ k) (l : List Nat) (x : Nat) :
    windows_of k (l ++ [x]) =
      windows_of k l ++ (if k ≤ l.length + 1 then [lastN k (l ++ [x])] else []) := by
  unfold windows_of
  simp only [List.length_append, List.length_singleton]
  by_cases h : k ≤ l.length + 1
  · have e : l.length + 1 + 1 - k = (l.length + 1 - k) + 1 := by omega
    rw [e, List.range_succ, List.map_append, if_pos h]
    congr 1
    · apply List.map_congr_left
      intro i hi
      rw [List.mem_range] at hi
      rw [List.drop_append_of_le_length (by omega),
        List.take_append_of_le_length (by rw [List.length_drop]; omega)]
    · simp only [List.map_cons, List.map_nil, lastN, List.length_append,
        List.length_singleton]
      rw [List.take_of_length_le]
      rw [List.length_drop, List.length_append, List.length_singleton]
      omega
  · have e1 : l.length + 1 + 1 - k = 0 := by omega
    have e2 : l.length + 1 - k = 0 := by omega
    rw [e1, e2, if_neg h]
    rfl

theorem length_ref_grams (crc : List Nat → Nat) (G : Nat) (n : List Nat) :
    (ref_grams crc G n).length = n.length + 1 - G := by
  unfold ref_grams
  rw [List.length_map, length_windows_of]

theorem length_ref_minima (W : Nat) (c : List Nat) :
    (ref_minima W c).length = c.length + 1 - W := by
  unfold ref_minima
  rw [List.length_map, length_windows_of]

theorem ref_grams_snoc (crc : List Nat → Nat) (G : Nat) (hG : 1 ≤ G) (n : List Nat) (x : Nat) :
    ref_grams crc G (n ++ [x]) =
      ref_grams crc G n ++
        (if G ≤ n.length + 1 then [crc32 crc (lastN G (n ++ [x]))] else []) := by
  unfold ref_grams
  rw [windows_of_snoc G hG, List.map_append]
  congr 1
  by_cases h : G ≤ n.length + 1 <;> simp [h]

theorem ref_minima_snoc (W : Nat) (hW : 1 ≤ W) (c : List Nat) (x : Nat) :
    ref_minima W (c ++ [x]) =
      ref_minima W c ++ (if W ≤ c.length + 1 then [list_min (lastN W (c ++ [x]))] else []) := by
  unfold ref_minima
  rw [windows_of_snoc W hW, List.map_append]
  congr 1
  by_cases h : W ≤ c.length + 1 <;> simp [h]

theorem ref_grams_lt (crc : List Nat → Nat) (G : Nat) (n : List Nat) :
    ∀ x ∈ ref_grams crc G n, x ≤ MAX_UINT32 := by
  intro x hx
  unfold ref_grams at hx
  rw [List.mem_map] at hx
  obtain ⟨a, _, rfl⟩ := hx
  unfold crc32 u32 MAX_UINT32
  omega

theorem length_ref_mins (crc : List Nat → Nat) (G W : Nat) (p : List Nat) :
    (ref_mins crc G W p).length = (ref_bytes p).length + 1 - G + 1 - W := by
  unfold ref_mins
  rw [length_ref_minima, length_ref_grams]

theorem ref_windows_skip (crc : List Nat → Nat) (G W : Nat) (p : List Nat) (b : Nat)
    (h : normalize b = 0) : ref_windows crc G W (p ++ [b]) = ref_windows crc G W p := by
  unfold ref_windows ref_mins
  rw [ref_bytes_snoc, ref_lines_snoc]
  simp [h]

theorem ref_windows_short (crc : List Nat → Nat) (G W : Nat) (p : List Nat)
    (h : (ref_bytes p).length + 1 - G + 1 - W = 0) : ref_windows crc G W p = [] := by
  unfold ref_windows
  have : ref_mins crc G W p = [] := by
    apply List.eq_nil_of_length_eq_zero
    rw [length_ref_mins, h]
  rw [this, List.zip_nil_left]

theorem ref_windows_full (crc : List Nat → Nat) (G W : Nat) (hG : 1 ≤ G) (hW : 1 ≤ W)
    (p : List Nat) (b : Nat) (h : normalize b ≠ 0)
    (hs : G + W ≤ (ref_bytes p).length + 2) :
    ref_windows crc G W (p ++ [b]) =
      ref_windows crc G W p ++
        [(list_min (lastN W (ref_grams crc G (ref_bytes p) ++
            [crc32 crc (lastN G (ref_bytes p ++ [normalize b]))])),
          1 + (p ++ [b]).count 10)] := by
  unfold ref_windows ref_mins
  rw [ref_bytes_snoc, ref_lines_snoc, if_pos h, if_pos h, ref_grams_snoc crc G hG,
    if_pos (by omega), ref_minima_snoc W hW, if_pos (by rw [length_ref_grams]; omega),
    List.drop_append_of_le_length (by rw [length_ref_lines]; omega),
    List.zip_append (by
      rw [length_ref_minima, length_ref_grams, List.length_drop, length_ref_lines]; omega)]
  rfl

theorem ref_walk_snoc (crc : List Nat → Nat) (ws : List (Nat × Nat)) (m ln : Nat) :
    ∀ last, ref_walk crc last (ws ++ [(m, ln)]) =
      ref_walk crc last ws ++
        (if m ≠ (ws.map Prod.fst).getLastD last then [(crc32 crc (raw_bytes m), ln)] else []) := by
  induction ws with
  | nil =>
    intro last
    simp only [List.nil_append, ref_walk, List.map_nil, List.getLastD_nil]
  | cons w ws ih =>
    intro last
    obtain ⟨m1, l1⟩ := w
    rw [List.cons_append, List.map_cons, List.getLastD_cons]
    by_cases h : m1 = last
    · subst h
      simp only [ref_walk, ne_eq, not_true_eq_false, if_false]
      rw [ih m1]
    · simp only [ref_walk, ne_eq, h, not_false_eq_true, if_true, List.cons_append]
      rw [ih m1]

theorem length_ref_walk_le (crc : List Nat → Nat) (ws : List (Nat × Nat)) :
    ∀ last, (ref_walk crc last ws).length ≤ ws.length := by
  induction ws with
  | nil => intro last; simp [ref_walk]
  | cons w ws ih =>
    intro last
    obtain ⟨m1, l1⟩ := w
    by_cases h : m1 = last
    · simp only [ref_walk, h, ne_eq, not_true_eq_false, if_false, List.length_cons]
      exact Nat.le_succ_of_le (ih last)
    · simp only [ref_walk, ne_eq, h, not_false_eq_true, if_true, List.length_cons]
      exact Nat.succ_le_succ (ih m1)

theorem length_ref_bytes_le (p : List Nat) : (ref_bytes p).length ≤ p.length := by
  unfold ref_bytes
  exact (List.length_filter_le _ _).trans (by rw [List.length_map])

theorem length_ref_emissions_le (crc : List Nat → Nat) (G W : Nat) (p : List Nat) :
    (ref_emissions crc G W p).length ≤ p.length := by
  unfold ref_emissions
  refine (length_ref_walk_le crc _ 0).trans ?_
  unfold ref_windows
  rw [List.length_zip, List.length_drop, length_ref_lines]
  have := length_ref_bytes_le p
  omega

theorem ref_emissions_skip (crc : List Nat → Nat) (G W : Nat) (p : List Nat) (b : Nat)
    (h : normalize b = 0) : ref_emissions crc G W (p ++ [b]) = ref_emissions crc G W p := by
  unfold ref_emissions
  rw [ref_windows_skip crc G W p b h]

theorem ref_emissions_short (crc : List Nat → Nat) (G W : Nat) (p : List Nat) (b : Nat)
    (h : (ref_bytes (p ++ [b])).length + 1 - G + 1 - W = 0) :
    ref_emissions crc G W (p ++ [b]) = ref_emissions crc G W p := by
  unfold ref_emissions
  rw [ref_windows_short crc G W _ h, ref_windows_short crc G W p]
  have := h
  rw [ref_bytes_snoc, List.length_append] at this
  omega

theorem ref_emissions_full (crc : List Nat → Nat) (G W : Nat) (hG : 1 ≤ G) (hW : 1 ≤ W)
    (p : List Nat) (b : Nat) (h : normalize b ≠ 0)
    (hs : G + W ≤ (ref_bytes p).length + 2) :
    ref_emissions crc G W (p ++ [b]) =
      ref_emissions crc G W p ++
        (if list_min (lastN W (ref_grams crc G (ref_bytes p) ++
              [crc32 crc (lastN G (ref_bytes p ++ [normalize b]))])) ≠
            ((ref_windows crc G W p).map Prod.fst).getLastD 0
         then [(crc32 crc (raw_bytes (list_min (lastN W (ref_grams crc G (ref_bytes p) ++
              [crc32 crc (lastN G (ref_bytes p ++ [normalize b]))])))),
            1 + (p ++ [b]).count 10)]
         else []) := by
  unfold ref_emissions
  rw [ref_windows_full crc G W hG hW p b h hs, ref_walk_snoc]

/-- The emissions of a prefix of the input are a prefix of the emissions of the input. -/
theorem ref_emissions_mono (crc : List Nat → Nat) (G W : Nat) (hG : 1 ≤ G) (hW : 1 ≤ W)
    (p r : List Nat) : ref_emissions crc G W p <+: ref_emissions crc G W (p ++ r) := by
  induction r using List.reverseRecOn with
  | nil => rw [List.append_nil]
  | append_singleton r b ih =>
    refine ih.trans ?_
    rw [← List.append_assoc]
    by_cases h : normalize b = 0
    · rw [ref_emissions_skip crc G W _ b h]
    · by_cases hs : G + W ≤ (ref_bytes (p ++ r)).length + 2
      · rw [ref_emissions_full crc G W hG hW _ b h hs]
        exact List.prefix_append _ _
      · rw [ref_emissions_short crc G W _ b]
        rw [ref_bytes_snoc, List.length_append, if_pos h, List.length_singleton]
        omega

/-! ## The loop invariant -/

theorem store_after (pre arr : List Nat) (v : Nat) (h : pre.length < arr.length) :
    store (pre ++ arr.drop pre.length) pre.length v =
      some ((pre ++ [v]) ++ arr.drop (pre.length + 1)) := by
  rw [store_eq_some _ _ _ (by rw [List.length_append, List.length_drop]; omega)]
  congr 1
  rw [List.set_append_right _ _ (Nat.le_refl _), Nat.sub_self, List.drop_eq_getElem_cons h,
    List.set_cons_zero, List.append_assoc]
  rfl

theorem add_hash_same (crc : List Nat → Nat) (hash line : Nat) (hashes lines : List Nat)
    (counter : Nat) :
    add_hash crc hash line hashes lines hash counter = some (hash, hashes, lines, counter) := by
  simp [add_hash]

theorem add_hash_new (crc : List Nat → Nat) (hash line last : Nat) (hashes0 lines0 : List Nat)
    (e : List (Nat × Nat)) (hne : hash ≠ last) (hh : e.length < hashes0.length)
    (hl : e.length < lines0.length) (h32 : e.length + 1 < 4294967296) :
    add_hash crc hash line (e.map Prod.fst ++ hashes0.drop e.length)
        (e.map Prod.snd ++ lines0.drop e.length) last e.length =
      some (hash,
        (e ++ [(crc32 crc (raw_bytes hash), line)]).map Prod.fst ++ hashes0.drop (e.length + 1),
        (e ++ [(crc32 crc (raw_bytes hash), line)]).map Prod.snd ++ lines0.drop (e.length + 1),
        e.length + 1) := by
  have h1 := store_after (e.map Prod.fst) hashes0 (crc32 crc (raw_bytes hash))
    (by rw [List.length_map]; exact hh)
  have h2 := store_after (e.map Prod.snd) lines0 line (by rw [List.length_map]; exact hl)
  rw [List.length_map] at h1 h2
  have h3 : u32 (e.length + 1) = e.length + 1 := Nat.mod_eq_of_lt h32
  simp only [add_hash, ne_eq, hne, not_false_eq_true, if_true, h1, h2, h3, List.map_append,
    List.map_cons, List.map_nil]

theorem mem_lastN (k : Nat) (l : List Nat) (x : Nat) (h : x ∈ lastN k l) : x ∈ l :=
  List.mem_of_mem_drop h

theorem on_window_spec (crc : List Nat → Nat) (W limit : Nat) (hashes0 lines0 : List Nat)
    (hW : 1 ≤ W) (s : State) (c : List Nat) (e : List (Nat × Nat))
    (hlen : s.window_buffer.length = 4 * W) (hoff : s.window < 3 * W) (hc : W ≤ c.length)
    (hv : view s.window_buffer s.window W = lastN W c) (hb : ∀ x ∈ c, x ≤ MAX_UINT32)
    (hcount : s.counter = e.length) (hbelow : e.length < limit)
    (h32 : e.length + 1 < 4294967296)
    (hhash : s.hashes = e.map Prod.fst ++ hashes0.drop e.length)
    (hlines : s.lines = e.map Prod.snd ++ lines0.drop e.length)
    (hcap : list_min (lastN W c) ≠ s.last →
      e.length < hashes0.length ∧ e.length < lines0.length) :
    ∃ brk s1, on_window crc W limit s = some (brk, s1) ∧
      s1.line = s.line ∧ s1.gram_buffer = s.gram_buffer ∧ s1.gram = s.gram ∧
      s1.gram_ptr = s.gram_ptr ∧ s1.last = list_min (lastN W c) ∧
      s1.counter = (e ++ (if list_min (lastN W c) ≠ s.last
          then [(crc32 crc (raw_bytes (list_min (lastN W c))), s.line)] else [])).length ∧
      s1.hashes = (e ++ (if list_min (lastN W c) ≠ s.last
          then [(crc32 crc (raw_bytes (list_min (lastN W c))), s.line)] else [])).map Prod.fst ++
        hashes0.drop (e ++ (if list_min (lastN W c) ≠ s.last
          then [(crc32 crc (raw_bytes (list_min (lastN W c))), s.line)] else [])).length ∧
      s1.lines = (e ++ (if list_min (lastN W c) ≠ s.last
          then [(crc32 crc (raw_bytes (list_min (lastN W c))), s.line)] else [])).map Prod.snd ++
        lines0.drop (e ++ (if list_min (lastN W c) ≠ s.last
          then [(crc32 crc (raw_bytes (list_min (lastN W c))), s.line)] else [])).length ∧
      (brk = true → (e ++ (if list_min (lastN W c) ≠ s.last
          then [(crc32 crc (raw_bytes (list_min (lastN W c))), s.line)] else [])).length = limit) ∧
      (brk = false → (e ++ (if list_min (lastN W c) ≠ s.last
          then [(crc32 crc (raw_bytes (list_min (lastN W c))), s.line)] else [])).length < limit ∧
        Ring W s1.window_buffer s1.window s1.window_ptr c) := by
  have hsm : smaller_hash W s.window_buffer s.window = some (list_min (lastN W c)) := by
    rw [smaller_hash_spec W _ _ hW (by omega), hv]
    intro x hx
    rw [hv] at hx
    exact hb x (mem_lastN _ _ _ hx)
  obtain ⟨off1, buf1, hshift, hring⟩ := Ring.of_shift hW hlen hoff hc hv
  have hdec : dec W = W - 1 := by
    unfold dec
    rw [if_neg (by omega)]
  generalize list_min (lastN W c) = mn at hsm hcap ⊢
  unfold on_window
  rw [hsm]
  simp only []
  by_cases hne : mn = s.last
  · have hadd := add_hash_same crc mn s.line s.hashes s.lines s.counter
    rw [if_neg (by simpa using hne), List.append_nil, ← hne, hadd]
    simp only []
    rw [if_neg (by omega), shift_window_eq_shift_gram, hshift]
    refine ⟨_, _, rfl, rfl, rfl, rfl, rfl, rfl, hcount, hhash, hlines, by simp, ?_⟩
    intro _
    refine ⟨hbelow, ?_⟩
    rw [hdec]
    exact hring
  · have hadd := add_hash_new crc mn s.line s.last hashes0 lines0 e hne (hcap hne).1
      (hcap hne).2 h32
    rw [if_pos hne, hhash, hlines, hcount, hadd]
    simp only []
    by_cases hlim : e.length + 1 ≥ limit
    · rw [if_pos hlim]
      refine ⟨_, _, rfl, rfl, rfl, rfl, rfl, rfl, ?_, ?_, ?_, ?_, by simp⟩
      · simp
      · simp
      · simp
      · intro _
        rw [List.length_append, List.length_singleton]
        omega
    · rw [if_neg hlim, shift_window_eq_shift_gram, hshift]
      refine ⟨_, _, rfl, rfl, rfl, rfl, rfl, rfl, ?_, ?_, ?_, by simp, ?_⟩
      · simp
      · simp
      · simp
      · intro _
        refine ⟨by rw [List.length_append, List.length_singleton]; omega, ?_⟩
        rw [hdec]
        exact hring

theorem store_after_none (pre arr : List Nat) (v : Nat) (h : arr.length ≤ pre.length) :
    store (pre ++ arr.drop pre.length) pre.length v = none := by
  unfold store
  rw [if_neg]
  rw [List.length_append, List.length_drop]
  omega

theorem add_hash_fail (crc : List Nat → Nat) (hash line last : Nat) (hashes0 lines0 : List Nat)
    (e : List (Nat × Nat)) (hne : hash ≠ last)
    (hnc : ¬ (e.length < hashes0.length ∧ e.length < lines0.length)) :
    add_hash crc hash line (e.map Prod.fst ++ hashes0.drop e.length)
      (e.map Prod.snd ++ lines0.drop e.length) last e.length = none := by
  unfold add_hash
  rw [if_pos hne]
  by_cases h1 : e.length < hashes0.length
  · have h2 := store_after (e.map Prod.fst) hashes0 (crc32 crc (raw_bytes hash))
      (by rw [List.length_map]; exact h1)
    have h3 := store_after_none (e.map Prod.snd) lines0 line (by rw [List.length_map]; omega)
    rw [List.length_map] at h2 h3
    rw [h2]
    simp only []
    rw [h3]
  · have h2 := store_after_none (e.map Prod.fst) hashes0 (crc32 crc (raw_bytes hash))
      (by rw [List.length_map]; omega)
    rw [List.length_map] at h2
    rw [h2]

theorem on_window_fail (crc : List Nat → Nat) (W limit : Nat) (hashes0 lines0 : List Nat)
    (hW : 1 ≤ W) (s : State) (c : List Nat) (e : List (Nat × Nat))
    (hlen : s.window + W ≤ s.window_buffer.length)
    (hv : view s.window_buffer s.window W = lastN W c) (hb : ∀ x ∈ c, x ≤ MAX_UINT32)
    (hcount : s.counter = e.length)
    (hhash : s.hashes = e.map Prod.fst ++ hashes0.drop e.length)
    (hlines : s.lines = e.map Prod.snd ++ lines0.drop e.length)
    (hne : list_min (lastN W c) ≠ s.last)
    (hnc : ¬ (e.length < hashes0.length ∧ e.length < lines0.length)) :
    on_window crc W limit s = none := by
  have hsm : smaller_hash W s.window_buffer s.window = some (list_min (lastN W c)) := by
    rw [smaller_hash_spec W _ _ hW hlen, hv]
    intro x hx
    rw [hv] at hx
    exact hb x (mem_lastN _ _ _ hx)
  unfold on_window
  rw [hsm]
  simp only []
  rw [hhash, hlines, hcount, add_hash_fail crc _ _ _ _ _ _ hne hnc]

theorem length_ref_emissions_snoc_le (crc : List Nat → Nat) (G W : Nat) (hG : 1 ≤ G)
    (hW : 1 ≤ W) (p : List Nat) (b : Nat) :
    (ref_emissions crc G W (p ++ [b])).length ≤ (ref_emissions crc G W p).length + 1 := by
  by_cases hz : normalize b = 0
  · rw [ref_emissions_skip crc G W p b hz]
    exact Nat.le_succ _
  · by_cases hs : G + W ≤ (ref_bytes p).length + 2
    · rw [ref_emissions_full crc G W hG hW p b hz hs, List.length_append]
      split
      · exact Nat.le_refl _
      · exact Nat.le_succ _
    · rw [ref_emissions_short crc G W p b]
      · exact Nat.le_succ _
      · rw [ref_bytes_snoc, List.length_append, if_pos hz, List.length_singleton]
        omega

theorem normalize_newline : normalize 10 = 0 := by decide

theorem count_snoc_of_ne (p : List Nat) (b : Nat) (h : b ≠ 10) :
    (p ++ [b]).count 10 = p.count 10 := by
  rw [List.count_append, List.count_singleton]
  simp [h]

theorem u32_line_succ (p : List Nat) :
    u32 (u32 (1 + p.count 10) + 1) = u32 (1 + (p ++ [10]).count 10) := by
  rw [List.count_append, List.count_singleton]
  unfold u32
  simp only [beq_self_eq_true, if_true]
  omega

theorem Inv.skip {crc : List Nat → Nat} {G W limit : Nat} {hashes0 lines0 : List Nat}
    {p : List Nat} {s : State} (h : Inv crc G W limit hashes0 lines0 p s) (b : Nat)
    (hz : normalize b = 0) :
    Inv crc G W limit hashes0 lines0 (p ++ [b])
      (if b = 10 then { s with line := u32 (s.line + 1) } else s) := by
  have hb : ref_bytes (p ++ [b]) = ref_bytes p := by
    rw [ref_bytes_snoc]
    simp [hz]
  have hw := ref_windows_skip crc G W p b hz
  have he := ref_emissions_skip crc G W p b hz
  obtain ⟨h1, h2, h3, h4, h5, h6, h7, h8⟩ := h
  by_cases c : b = 10
  · rw [if_pos c]
    subst c
    refine ⟨?_, by rw [hb]; exact h2, by rw [hb]; exact h3, by rw [hw]; exact h4,
      by rw [he]; exact h5, by rw [he]; exact h6, by rw [he]; exact h7, by rw [he]; exact h8⟩
    show u32 (s.line + 1) = _
    rw [h1, u32_line_succ]
  · rw [if_neg c]
    refine ⟨?_, by rw [hb]; exact h2, by rw [hb]; exact h3, by rw [hw]; exact h4,
      by rw [he]; exact h5, by rw [he]; exact h6, by rw [he]; exact h7, by rw [he]; exact h8⟩
    rw [h1, count_snoc_of_ne p b c]

theorem body_step (crc : List Nat → Nat) (G W limit : Nat) (hashes0 lines0 : List Nat)
    (hG : 1 ≤ G) (hW : 1 ≤ W)
    (p : List Nat) (b : Nat) (s : State) (hinv : Inv crc G W limit hashes0 lines0 p s)
    (hlen : (p ++ [b]).length < 4294967296)
    (hcapp : (ref_emissions crc G W p).length ≤ hashes0.length ∧
      (ref_emissions crc G W p).length ≤ lines0.length) :
    (((ref_emissions crc G W (p ++ [b])).length ≤ hashes0.length ∧
        (ref_emissions crc G W (p ++ [b])).length ≤ lines0.length) →
      ∃ brk s1, body crc G W limit b s = some (brk, s1) ∧
        (brk = false → Inv crc G W limit hashes0 lines0 (p ++ [b]) s1) ∧
        (brk = true → Out crc G W hashes0 lines0 (p ++ [b]) s1 ∧
          (ref_emissions crc G W (p ++ [b])).length = limit)) ∧
    (¬ ((ref_emissions crc G W (p ++ [b])).length ≤ hashes0.length ∧
        (ref_emissions crc G W (p ++ [b])).length ≤ lines0.length) →
      body crc G W limit b s = none) := by
  by_cases hz : normalize b = 0
  · have he := ref_emissions_skip crc G W p b hz
    refine ⟨fun _ => ⟨false, _, ?_, fun _ => hinv.skip b hz, fun h => absurd h (by simp)⟩,
      fun hn => absurd (by rw [he]; exact hcapp) hn⟩
    unfold body
    simp only [hz, if_true]
  · have hb10 : b ≠ 10 := by
      intro h
      rw [h] at hz
      exact hz normalize_newline
    have hnb : ref_bytes (p ++ [b]) = ref_bytes p ++ [normalize b] := by
      rw [ref_bytes_snoc, if_pos hz]
    have hcnt := count_snoc_of_ne p b hb10
    have hstore := hinv.gram.store_some (normalize b)
    unfold body on_byte
    simp only [hz, hb10, if_false]
    rw [hstore]
    simp only []
    by_cases hfull : s.gram_ptr + 1 ≥ G
    · rw [if_pos hfull]
      obtain ⟨hGn, hptr, hview⟩ := hinv.gram.push_full (normalize b) hfull
      have hglen : (s.gram_buffer.set (s.gram + s.gram_ptr) (normalize b)).length = 4 * G := by
        rw [List.length_set]
        exact hinv.gram.1
      have hread : read_span (s.gram_buffer.set (s.gram + s.gram_ptr) (normalize b)) s.gram G =
          some (lastN G (ref_bytes p ++ [normalize b])) := by
        unfold read_span
        rw [if_pos (by have := hinv.gram.2.1; omega)]
        exact congrArg some hview
      have hc1 : ref_grams crc G (ref_bytes (p ++ [b])) = ref_grams crc G (ref_bytes p) ++
          [crc32 crc (lastN G (ref_bytes p ++ [normalize b]))] := by
        rw [hnb, ref_grams_snoc crc G hG, if_pos (by
          rw [List.length_append, List.length_singleton] at hGn; exact hGn)]
      have hstorew := hinv.window.store_some (crc32 crc (lastN G (ref_bytes p ++ [normalize b])))
      unfold on_gram
      simp only []
      rw [hread]
      simp only []
      rw [hstorew]
      simp only []
      by_cases hfw : s.window_ptr + 1 ≥ W
      · rw [if_pos hfw]
        obtain ⟨hWc, hwptr, hwview⟩ := hinv.window.push_full
          (crc32 crc (lastN G (ref_bytes p ++ [normalize b]))) hfw
        have hs : G + W ≤ (ref_bytes p).length + 2 := by
          rw [List.length_append, List.length_singleton, length_ref_grams] at hWc
          rw [List.length_append, List.length_singleton] at hGn
          omega
        have hline : s.line = 1 + (p ++ [b]).count 10 := by
          rw [hinv.line, hcnt]
          have := List.count_le_length 10 p
          rw [List.length_append, List.length_singleton] at hlen
          exact Nat.mod_eq_of_lt (by omega)
        have h32 : (ref_emissions crc G W p).length + 1 < 4294967296 := by
          have := length_ref_emissions_le crc G W p
          rw [List.length_append, List.length_singleton] at hlen
          omega
        have hEfull := ref_emissions_full crc G W hG hW p b hz hs
        have hwlen : (s.window_buffer.set (s.window + s.window_ptr)
            (crc32 crc (lastN G (ref_bytes p ++ [normalize b])))).length = 4 * W := by
          rw [List.length_set]
          exact hinv.window.1
        have hbound : ∀ x ∈ ref_grams crc G (ref_bytes p) ++
            [crc32 crc (lastN G (ref_bytes p ++ [normalize b]))], x ≤ MAX_UINT32 := by
          rw [← hc1]
          exact ref_grams_lt crc G _
        by_cases hcap : (ref_emissions crc G W (p ++ [b])).length ≤ hashes0.length ∧
            (ref_emissions crc G W (p ++ [b])).length ≤ lines0.length
        · refine ⟨fun _ => ?_, fun hn => absurd hcap hn⟩
          obtain ⟨brk, s1, hw, e1, e2, e3, e4, e5, e6, e7, e8, e9, e10⟩ :=
            on_window_spec crc W limit hashes0 lines0 hW
              { s with gram_buffer := s.gram_buffer.set (s.gram + s.gram_ptr) (normalize b),
                       gram_ptr := s.gram_ptr + 1,
                       window_buffer := s.window_buffer.set (s.window + s.window_ptr)
                         (crc32 crc (lastN G (ref_bytes p ++ [normalize b]))),
                       window_ptr := s.window_ptr + 1 }
              (ref_grams crc G (ref_bytes p) ++
                [crc32 crc (lastN G (ref_bytes p ++ [normalize b]))])
              (ref_emissions crc G W p)
              hwlen hinv.window.2.1 hWc hwview hbound hinv.out.counter hinv.below h32
              hinv.out.hashes hinv.out.lines
              (by
                intro hne
                simp only [] at hne
                rw [hinv.last] at hne
                rw [hEfull, if_pos hne, List.length_append, List.length_singleton] at hcap
                omega)
          simp only [] at e1 e2 e3 e4 e5 e6 e7 e8 e9 e10
          rw [hinv.last, hline, ← hEfull] at e6 e7 e8 e9 e10
          rw [hw]
          cases brk with
          | true =>
            simp only []
            exact ⟨true, s1, rfl, fun h => absurd h (by simp), fun _ => ⟨⟨e6, e7, e8⟩, e9 rfl⟩⟩
          | false =>
            simp only []
            rw [e2, e3]
            obtain ⟨off1, buf1, hshift, hring⟩ :=
              Ring.of_shift hG hglen hinv.gram.2.1 hGn hview
            rw [hshift]
            simp only []
            refine ⟨false, _, rfl, fun _ => ?_, fun h => absurd h (by simp)⟩
            have hdec : dec G = G - 1 := by
              unfold dec
              rw [if_neg (by omega)]
            refine ⟨?_, ?_, ?_, ?_, (e10 rfl).1, ⟨e6, e7, e8⟩⟩
            · show s1.line = _
              rw [e1, hinv.line, hcnt]
            · show Ring G buf1 off1 (dec G) _
              rw [hdec, hnb]
              exact hring
            · show Ring W s1.window_buffer s1.window s1.window_ptr _
              rw [hc1]
              exact (e10 rfl).2
            · show s1.last = _
              rw [e5, ref_windows_full crc G W hG hW p b hz hs, List.map_append, List.map_cons,
                List.map_nil, List.getLastD_concat]
        · refine ⟨fun h => absurd h hcap, fun _ => ?_⟩
          have hne : list_min (lastN W (ref_grams crc G (ref_bytes p) ++
              [crc32 crc (lastN G (ref_bytes p ++ [normalize b]))])) ≠
                ((ref_windows crc G W p).map Prod.fst).getLastD 0 := by
            intro heq
            rw [hEfull, if_neg (by simpa using heq), List.append_nil] at hcap
            exact hcap hcapp
          have hnc : ¬ ((ref_emissions crc G W p).length < hashes0.length ∧
              (ref_emissions crc G W p).length < lines0.length) := by
            rw [hEfull, if_pos hne, List.length_append, List.length_singleton] at hcap
            intro h
            exact hcap ⟨h.1, h.2⟩
          rw [on_window_fail crc W limit hashes0 lines0 hW
            { s with gram_buffer := s.gram_buffer.set (s.gram + s.gram_ptr) (normalize b),
                     gram_ptr := s.gram_ptr + 1,
                     window_buffer := s.window_buffer.set (s.window + s.window_ptr)
                       (crc32 crc (lastN G (ref_bytes p ++ [normalize b]))),
                     window_ptr := s.window_ptr + 1 }
            (ref_grams crc G (ref_bytes p) ++
              [crc32 crc (lastN G (ref_bytes p ++ [normalize b]))])
            (ref_emissions crc G W p)
            (by
              show s.window + W ≤ _
              rw [hwlen]
              have := hinv.window.2.1
              omega)
            hwview hbound hinv.out.counter hinv.out.hashes hinv.out.lines
            (by rw [← hinv.last] at hne; exact hne) hnc]
      · rw [if_neg hfw]
        simp only []
        obtain ⟨off1, buf1, hshift, hring⟩ :=
          Ring.of_shift hG hglen hinv.gram.2.1 hGn hview
        rw [hshift]
        simp only []
        have hdec : dec G = G - 1 := by
          unfold dec
          rw [if_neg (by omega)]
        have hshort : (ref_bytes (p ++ [b])).length + 1 - G + 1 - W = 0 := by
          have h1 := hinv.window.2.2.1
          rw [length_ref_grams] at h1
          rw [hnb, List.length_append, List.length_singleton]
          omega
        have hw1 : ref_windows crc G W (p ++ [b]) = [] := ref_windows_short crc G W _ hshort
        have hw0 : ref_windows crc G W p = [] := ref_windows_short crc G W _ (by
          rw [hnb, List.length_append, List.length_singleton] at hshort
          omega)
        have he := ref_emissions_short crc G W p b hshort
        refine ⟨fun _ => ⟨false, _, rfl, fun _ => ?_, fun h => absurd h (by simp)⟩,
          fun hn => absurd (by rw [he]; exact hcapp) hn⟩
        obtain ⟨h1, h2, h3, h4, h5, h6, h7, h8⟩ := hinv
        refine ⟨?_, ?_, ?_, ?_, by rw [he]; exact h5, by rw [he]; exact h6,
          by rw [he]; exact h7, by rw [he]; exact h8⟩
        · show s.line = _
          rw [h1, hcnt]
        · show Ring G buf1 off1 (dec G) _
          rw [hdec, hnb]
          exact hring
        · rw [hc1]
          exact Ring.push_lt h3 _ (by omega)
        · rw [hw1]
          rw [hw0] at h4
          exact h4
    · rw [if_neg hfull]
      have hlt : (ref_bytes p).length + 1 < G := by
        have := hinv.gram.2.2.1
        omega
      have hw1 : ref_windows crc G W (p ++ [b]) = [] :=
        ref_windows_short crc G W _ (by rw [hnb, List.length_append, List.length_singleton]; omega)
      have hw0 : ref_windows crc G W p = [] := ref_windows_short crc G W _ (by omega)
      have he := ref_emissions_short crc G W p b
        (by rw [hnb, List.length_append, List.length_singleton]; omega)
      refine ⟨fun _ => ⟨false, _, rfl, fun _ => ?_, fun h => absurd h (by simp)⟩,
        fun hn => absurd (by rw [he]; exact hcapp) hn⟩
      obtain ⟨h1, h2, h3, h4, h5, h6, h7, h8⟩ := hinv
      refine ⟨?_, ?_, ?_, ?_, by rw [he]; exact h5, by rw [he]; exact h6, by rw [he]; exact h7,
        by rw [he]; exact h8⟩
      · show s.line = _
        rw [h1, hcnt]
      · rw [hnb]
        exact Ring.push_lt h2 (normalize b) (by omega)
      · rw [hnb, ref_grams_snoc crc G hG, if_neg (by omega), List.append_nil]
        exact h3
      · rw [hw1]
        rw [hw0] at h4
        exact h4

theorem Out.result {crc : List Nat → Nat} {G W : Nat} {hashes0 lines0 : List Nat}
    {p : List Nat} {s : State} (h : Out crc G W hashes0 lines0 p s) :
    (s.counter, s.hashes, s.lines) =
      ((ref_emissions crc G W p).length,
        (ref_emissions crc G W p).map Prod.fst ++ hashes0.drop (ref_emissions crc G W p).length,
        (ref_emissions crc G W p).map Prod.snd ++ lines0.drop (ref_emissions crc G W p).length) := by
  obtain ⟨h1, h2, h3⟩ := h
  rw [h2, h3, h1]

theorem ref_result_of_le (crc : List Nat → Nat) (G W : Nat) (p hashes0 lines0 : List Nat)
    (limit : Nat) (h : (ref_emissions crc G W p).length ≤ limit) :
    ref_result crc G W p hashes0 lines0 limit =
      ((ref_emissions crc G W p).length,
        (ref_emissions crc G W p).map Prod.fst ++ hashes0.drop (ref_emissions crc G W p).length,
        (ref_emissions crc G W p).map Prod.snd ++ lines0.drop (ref_emissions crc G W p).length) := by
  unfold ref_result
  simp only [List.take_of_length_le h]

theorem ref_result_append (crc : List Nat → Nat) (G W : Nat) (hG : 1 ≤ G) (hW : 1 ≤ W)
    (p r hashes0 lines0 : List Nat) (limit : Nat)
    (h : limit ≤ (ref_emissions crc G W p).length) :
    ref_result crc G W (p ++ r) hashes0 lines0 limit =
      ref_result crc G W p hashes0 lines0 limit := by
  obtain ⟨t, ht⟩ := ref_emissions_mono crc G W hG hW p r
  unfold ref_result
  rw [← ht, List.take_append_of_le_length h]

theorem loop_spec (crc : List Nat → Nat) (G W limit : Nat) (hashes0 lines0 : List Nat)
    (hG : 1 ≤ G) (hW : 1 ≤ W) :
    ∀ (rest p : List Nat) (s : State), Inv crc G W limit hashes0 lines0 p s →
      (p ++ rest).length < 4294967296 →
      ((ref_emissions crc G W p).length ≤ hashes0.length ∧
        (ref_emissions crc G W p).length ≤ lines0.length) →
      ((((ref_emissions crc G W (p ++ rest)).take limit).length ≤ hashes0.length ∧
          ((ref_emissions crc G W (p ++ rest)).take limit).length ≤ lines0.length) →
        ∃ s1, loop crc G W limit rest s = some s1 ∧
          (s1.counter, s1.hashes, s1.lines) =
            ref_result crc G W (p ++ rest) hashes0 lines0 limit) ∧
      (¬ (((ref_emissions crc G W (p ++ rest)).take limit).length ≤ hashes0.length ∧
          ((ref_emissions crc G W (p ++ rest)).take limit).length ≤ lines0.length) →
        loop crc G W limit rest s = none) := by
  intro rest
  induction rest with
  | nil =>
    intro p s hinv _ hcapp
    rw [List.append_nil, List.take_of_length_le (Nat.le_of_lt hinv.below)]
    refine ⟨fun _ => ⟨s, rfl, ?_⟩, fun hn => absurd hcapp hn⟩
    rw [ref_result_of_le _ _ _ _ _ _ _ (Nat.le_of_lt hinv.below)]
    exact hinv.out.result
  | cons b rest ih =>
    intro p s hinv hlen hcapp
    have hlen1 : (p ++ [b]).length < 4294967296 := by
      rw [List.length_append, List.length_cons] at hlen
      rw [List.length_append, List.length_singleton]
      omega
    have happ : p ++ b :: rest = (p ++ [b]) ++ rest := by
      rw [List.append_assoc]
      rfl
    obtain ⟨t, ht⟩ := ref_emissions_mono crc G W hG hW (p ++ [b]) rest
    have hstep := length_ref_emissions_snoc_le crc G W hG hW p b
    have hbelow := hinv.below
    obtain ⟨hA, hB⟩ := body_step crc G W limit hashes0 lines0 hG hW p b s hinv hlen1 hcapp
    rw [happ]
    by_cases hc1 : (ref_emissions crc G W (p ++ [b])).length ≤ hashes0.length ∧
        (ref_emissions crc G W (p ++ [b])).length ≤ lines0.length
    · obtain ⟨brk, s1, hb, h1, h2⟩ := hA hc1
      cases brk with
      | false =>
        obtain ⟨I1, I2⟩ := ih (p ++ [b]) s1 (h1 rfl) (by rw [← happ]; exact hlen) hc1
        constructor
        · intro hT
          obtain ⟨s2, hs2, hr⟩ := I1 hT
          refine ⟨s2, ?_, hr⟩
          simp only [loop, hb]
          exact hs2
        · intro hn
          simp only [loop, hb]
          exact I2 hn
      | true =>
        obtain ⟨ho, hfull⟩ := h2 rfl
        have htake : (ref_emissions crc G W (p ++ [b] ++ rest)).take limit =
            ref_emissions crc G W (p ++ [b]) := by
          rw [← ht, ← hfull, List.take_left]
        rw [htake]
        refine ⟨fun _ => ⟨s1, ?_, ?_⟩, fun hn => absurd hc1 hn⟩
        · simp only [loop, hb]
        · rw [ref_result_append crc G W hG hW _ _ _ _ _ (Nat.le_of_eq hfull.symm),
            ref_result_of_le _ _ _ _ _ _ _ (Nat.le_of_eq hfull)]
          exact ho.result
    · have hnone := hB hc1
      have hge : (ref_emissions crc G W (p ++ [b])).length ≤
          ((ref_emissions crc G W (p ++ [b] ++ rest)).take limit).length := by
        rw [← ht, List.length_take, List.length_append]
        omega
      constructor
      · intro hT
        exact absurd ⟨hge.trans hT.1, hge.trans hT.2⟩ hc1
      · intro _
        simp only [loop, hnone]

theorem length_malloc (n : Nat) (junk : Nat → Nat) : (malloc n junk).length = n := by
  unfold malloc
  rw [List.length_map, List.length_range]

theorem ref_emissions_nil (crc : List Nat → Nat) (G W : Nat) (hG : 1 ≤ G) (hW : 1 ≤ W) :
    ref_windows crc G W [] = [] ∧ ref_emissions crc G W [] = [] := by
  have h : ref_windows crc G W [] = [] := ref_windows_short crc G W [] (by
    show ([] : List Nat).length + 1 - G + 1 - W = 0
    rw [List.length_nil]
    omega)
  refine ⟨h, ?_⟩
  unfold ref_emissions
  rw [h]
  rfl

theorem Inv.init (crc : List Nat → Nat) (G W limit : Nat) (hashes0 lines0 : List Nat)
    (hG : 1 ≤ G) (hW : 1 ≤ W) (hlim : 1 ≤ limit) (jg jw : Nat → Nat) :
    Inv crc G W limit hashes0 lines0 [] (init G W jg jw hashes0 lines0) := by
  obtain ⟨hw, he⟩ := ref_emissions_nil crc G W hG hW
  refine ⟨rfl, ?_, ?_, ?_, ?_, ?_, ?_, ?_⟩
  · refine ⟨?_, ?_, ?_, rfl⟩
    · show (malloc (G * BUFFER_RATE) jg).length = 4 * G
      rw [length_malloc]
      unfold BUFFER_RATE
      omega
    · show 0 < 3 * G
      omega
    · show 0 = min (ref_bytes []).length (G - 1)
      simp [ref_bytes]
  · refine ⟨?_, ?_, ?_, ?_⟩
    · show (malloc (W * BUFFER_RATE) jw).length = 4 * W
      rw [length_malloc]
      unfold BUFFER_RATE
      omega
    · show 0 < 3 * W
      omega
    · show 0 = min (ref_grams crc G (ref_bytes [])).length (W - 1)
      rw [length_ref_grams]
      simp only [ref_bytes, List.map_nil, List.filter_nil, List.length_nil]
      omega
    · show view _ 0 0 = lastN 0 _
      unfold view lastN
      rw [List.take_zero, Nat.sub_zero, List.drop_length]
  · rw [hw]
    rfl
  · rw [he]
    exact hlim
  · rw [he]
    rfl
  · rw [he]
    rfl
  · rw [he]
    rfl

theorem length_scanned (src : List Nat) : (scanned src).length < 4294967296 := by
  unfold scanned u32
  rw [List.length_take]
  omega

/-- For `GRAM ≥ 1`, `WINDOW ≥ 1`, `limit ≥ 1` the routine is characterised
completely: it returns exactly when the entries it produces fit the two arrays,
and then it returns the reference result on the bytes it scans; no access to
the gram buffer or the window buffer is ever out of bounds. -/
theorem winnowing_char (crc : List Nat → Nat) (G W : Nat) (jg jw : Nat → Nat)
    (src hashes lines : List Nat) (limit : Nat) (hG : 1 ≤ G) (hW : 1 ≤ W)
    (hlim : 1 ≤ limit) :
    ((((ref_emissions crc G W (scanned src)).take limit).length ≤ hashes.length ∧
        ((ref_emissions crc G W (scanned src)).take limit).length ≤ lines.length) →
      winnowing crc G W jg jw src hashes lines limit =
        some (ref_result crc G W (scanned src) hashes lines limit)) ∧
    (¬ (((ref_emissions crc G W (scanned src)).take limit).length ≤ hashes.length ∧
        ((ref_emissions crc G W (scanned src)).take limit).length ≤ lines.length) →
      winnowing crc G W jg jw src hashes lines limit = none) := by
  obtain ⟨h1, h2⟩ := loop_spec crc G W limit hashes lines hG hW (scanned src) []
    (init G W jg jw hashes lines) (Inv.init crc G W limit hashes lines hG hW hlim jg jw)
    (by rw [List.nil_append]; exact length_scanned src)
    (by
      rw [(ref_emissions_nil crc G W hG hW).2]
      exact ⟨Nat.zero_le _, Nat.zero_le _⟩)
  rw [List.nil_append] at h1 h2
  constructor
  · intro hT
    obtain ⟨s1, e1, e2⟩ := h1 hT
    unfold winnowing
    rw [e1]
    simp only []
    rw [e2]
  · intro hn
    unfold winnowing
    rw [h2 hn]

/-- The routine computes the reference result on the bytes it scans. -/
theorem winnowing_eq_ref (crc : List Nat → Nat) (G W : Nat) (jg jw : Nat → Nat)
    (src hashes lines : List Nat) (limit : Nat) (hG : 1 ≤ G) (hW : 1 ≤ W)
    (hlim : 1 ≤ limit) (hh : limit ≤ hashes.length) (hl : limit ≤ lines.length) :
    winnowing crc G W jg jw src hashes lines limit =
      some (ref_result crc G W (scanned src) hashes lines limit) :=
  (winnowing_char crc G W jg jw src hashes lines limit hG hW hlim).1
    ⟨(List.length_take_le _ _).trans hh, (List.length_take_le _ _).trans hl⟩

/-- A run that returns has the reference result, whatever the size of the arrays. -/
theorem winnowing_some_eq_ref (crc : List Nat → Nat) (G W : Nat) (jg jw : Nat → Nat)
    (src hashes lines : List Nat) (limit : Nat) (r : Nat × List Nat × List Nat)
    (hG : 1 ≤ G) (hW : 1 ≤ W) (hlim : 1 ≤ limit)
    (hres : winnowing crc G W jg jw src hashes lines limit = some r) :
    r = ref_result crc G W (scanned src) hashes lines limit := by
  obtain ⟨h1, h2⟩ := winnowing_char crc G W jg jw src hashes lines limit hG hW hlim
  by_cases hT : ((ref_emissions crc G W (scanned src)).take limit).length ≤ hashes.length ∧
      ((ref_emissions crc G W (scanned src)).take limit).length ≤ lines.length
  · rw [h1 hT] at hres
    exact (Option.some.inj hres).symm
  · rw [h2 hT] at hres
    cases hres

theorem strlen_le_length (src : List Nat) : strlen src ≤ src.length := by
  induction src with
  | nil => exact Nat.le_refl _
  | cons c rest ih =>
    unfold strlen
    by_cases h : c = 0
    · rw [if_pos h]
      exact Nat.zero_le _
    · rw [if_neg h, List.length_cons]
      omega

theorem strlen_of_no_nul (src : List Nat) (h : 0 ∉ src) : strlen src = src.length := by
  induction src with
  | nil => rfl
  | cons c rest ih =>
    have hc : c ≠ 0 := fun e => h (by rw [e]; exact List.mem_cons_self _ _)
    have hr : 0 ∉ rest := fun e => h (List.mem_cons_of_mem _ e)
    unfold strlen
    rw [if_neg hc, ih hr, List.length_cons]

theorem scanned_of_c_string (src : List Nat) (h : c_string src) : scanned src = src := by
  unfold scanned u32
  rw [strlen_of_no_nul src h.1, Nat.mod_eq_of_lt h.2, List.take_length]

theorem take_min_length (l : List (Nat × Nat)) (n : Nat) :
    l.take (min n l.length) = l.take n := by
  rw [← List.take_take, List.take_length]

/-! ## Inputs whose length does not fit `uint32_t src_len` -/

theorem strlen_replicate (n c : Nat) (hc : c ≠ 0) : strlen (List.replicate n c) = n := by
  induction n with
  | zero => rfl
  | succ n ih =>
    rw [List.replicate_succ]
    unfold strlen
    rw [if_neg hc, ih]

theorem ref_bytes_replicate_skip (n c : Nat) (hc : normalize c = 0) :
    ref_bytes (List.replicate n c) = [] := by
  induction n with
  | zero => rfl
  | succ n ih =>
    unfold ref_bytes at ih ⊢
    rw [List.replicate_succ, List.map_cons, List.filter_cons_of_neg (by simp [hc])]
    exact ih

/-- The length of a string of `2 ^ 32` non-zero bytes is 0 as a `uint32_t`:
nothing of it is scanned. -/
theorem scanned_wrap (c d : Nat) (hc : c ≠ 0) (hd : d ≠ 0) :
    scanned (c :: List.replicate 4294967295 d) = [] := by
  unfold scanned u32
  have h : strlen (c :: List.replicate 4294967295 d) = 4294967295 + 1 := by
    unfold strlen
    rw [if_neg hc, strlen_replicate _ _ hd]
  rw [h]
  rfl

theorem winnowing_of_scanned_nil (crc : List Nat → Nat) (G W : Nat) (jg jw : Nat → Nat)
    (src hashes lines : List Nat) (limit : Nat) (h : scanned src = []) :
    winnowing crc G W jg jw src hashes lines limit = some (0, hashes, lines) := by
  unfold winnowing
  rw [h]
  rfl

/-! ## Refinement of the reference pipeline, and `normalize` -/

/-- C1, as amended.  For `GRAM ≥ 1`, `WINDOW ≥ 1`, `limit ≥ 1` and every input
`src` (caller arrays of at least `limit` cells), `winnowing` returns, and its
result is that of the reference pipeline run on the bytes the loop scans,
`src[0 .. src_len)` with `src_len = strlen(src)` as a `uint32_t`: the count is
the minimum of `limit` and the number of emissions, and the first `count` cells
of `hashes` and `lines` hold the first `count` emissions in order.  The scanned
bytes are all of `src` when `src` holds no zero byte and is shorter than
`2 ^ 32` bytes. -/
theorem winnowing_refines_reference (calc_crc32c : List Nat → Nat) (GRAM WINDOW : Nat)
    (junk_gram junk_window : Nat → Nat) (src hashes lines : List Nat) (limit : Nat)
    (hG : 1 ≤ GRAM) (hW : 1 ≤ WINDOW) (hlimit : 1 ≤ limit)
    (hhashes : limit ≤ hashes.length) (hlines : limit ≤ lines.length) :
    (∃ count hs ls,
      winnowing calc_crc32c GRAM WINDOW junk_gram junk_window src hashes lines limit =
        some (count, hs, ls) ∧
      count = min limit (ref_emissions calc_crc32c GRAM WINDOW (scanned src)).length ∧
      hs.take count =
        ((ref_emissions calc_crc32c GRAM WINDOW (scanned src)).take count).map Prod.fst ∧
      ls.take count =
        ((ref_emissions calc_crc32c GRAM WINDOW (scanned src)).take count).map Prod.snd) ∧
    scanned src = src.take (strlen src % 4294967296) ∧
    (c_string src → scanned src = src) := by
  have h := winnowing_eq_ref calc_crc32c GRAM WINDOW junk_gram junk_window src hashes lines
    limit hG hW hlimit hhashes hlines
  refine ⟨⟨_, _, _, h, ?_, ?_, ?_⟩, rfl, scanned_of_c_string src⟩
  · rw [List.length_take]
  · rw [List.take_left' (by rw [List.length_map]), List.length_take, take_min_length]
  · rw [List.take_left' (by rw [List.length_map]), List.length_take, take_min_length]

/-- An instance of C1 (amended): two-byte grams, windows of two grams, limit 3. -/
theorem winnowing_refines_reference_witness :
    (∃ count hs ls,
      winnowing sample_crc 2 2 (fun _ => 0) (fun _ => 0) sample_src [0, 0, 0] [0, 0, 0] 3 =
        some (count, hs, ls) ∧
      count = min 3 (ref_emissions sample_crc 2 2 (scanned sample_src)).length ∧
      hs.take count =
        ((ref_emissions sample_crc 2 2 (scanned sample_src)).take count).map Prod.fst ∧
      ls.take count =
        ((ref_emissions sample_crc 2 2 (scanned sample_src)).take count).map Prod.snd) ∧
    scanned sample_src = sample_src.take (strlen sample_src % 4294967296) ∧
    (c_string sample_src → scanned sample_src = sample_src) :=
  winnowing_refines_reference sample_crc 2 2 (fun _ => 0) (fun _ => 0) sample_src [0, 0, 0]
    [0, 0, 0] 3 (by decide) (by decide) (by decide) (by decide) (by decide)

/-- C1 fails as stated: on the input of `2 ^ 32` bytes `a` (`GRAM = WINDOW = 1`,
limit 1) `src_len` is 0 and `winnowing` returns count 0, where the reference
pipeline on the whole input has an emission, so that the minimum of the limit
and the number of emissions is 1. -/
theorem long_input_not_scanned :
    winnowing sample_crc 1 1 (fun _ => 0) (fun _ => 0) (97 :: List.replicate 4294967295 97)
      [0] [0] 1 = some (0, [0], [0]) ∧
    min 1 (ref_emissions sample_crc 1 1 (97 :: List.replicate 4294967295 97)).length = 1 := by
  refine ⟨winnowing_of_scanned_nil _ _ _ _ _ _ _ _ _
    (scanned_wrap 97 97 (by decide) (by decide)), ?_⟩
  have h := (ref_emissions_mono sample_crc 1 1 (Nat.le_refl _) (Nat.le_refl _) [97]
    (List.replicate 4294967295 97)).length_le
  have h1 : (ref_emissions sample_crc 1 1 [97]).length = 1 := by decide
  rw [h1, List.singleton_append] at h
  exact Nat.min_eq_left h

/-- C3. `normalize` keeps digits and lowercase letters, adds 32 to uppercase
letters, and maps every other byte to 0. -/
theorem normalize_spec (b : Nat) :
    (((48 ≤ b ∧ b ≤ 57) ∨ (97 ≤ b ∧ b ≤ 122)) → normalize b = b) ∧
    ((65 ≤ b ∧ b ≤ 90) → normalize b = b + 32) ∧
    (¬ ((48 ≤ b ∧ b ≤ 57) ∨ (97 ≤ b ∧ b ≤ 122) ∨ (65 ≤ b ∧ b ≤ 90)) → normalize b = 0) := by
  unfold normalize
  refine ⟨?_, ?_, ?_⟩
  · intro h
    split_ifs <;> omega
  · intro h
    split_ifs <;> omega
  · intro h
    split_ifs <;> omega

/-! ## The counter never passes the limit, whatever the configuration -/

theorem add_hash_counter_le (crc : List Nat → Nat) (hash line : Nat) (hashes lines : List Nat)
    (last counter : Nat) (r : Nat × List Nat × List Nat × Nat)
    (h : add_hash crc hash line hashes lines last counter = some r) :
    r.2.2.2 ≤ counter + 1 := by
  unfold add_hash at h
  split at h
  · split at h
    · cases h
    · split at h
      · cases h
      · cases h
        exact Nat.mod_le _ _
  · cases h
    exact Nat.le_succ _

theorem on_window_counter (crc : List Nat → Nat) (W limit : Nat) (s s1 : State) (brk : Bool)
    (h : on_window crc W limit s = some (brk, s1)) (hc : s.counter < limit) :
    s1.counter ≤ limit ∧ (brk = false → s1.counter < limit) := by
  unfold on_window at h
  split at h
  · cases h
  · split at h
    · cases h
    · rename_i hadd
      have hle := add_hash_counter_le _ _ _ _ _ _ _ _ hadd
      simp only [] at hle h
      split at h
      · cases h
        exact ⟨by simp only []; omega, fun e => absurd e (by simp)⟩
      · split at h
        · cases h
        · cases h
          exact ⟨by simp only []; omega, fun _ => by simp only []; omega⟩

theorem on_gram_counter (crc : List Nat → Nat) (G W limit : Nat) (s s1 : State) (brk : Bool)
    (h : on_gram crc G W limit s = some (brk, s1)) (hc : s.counter < limit) :
    s1.counter ≤ limit ∧ (brk = false → s1.counter < limit) := by
  unfold on_gram at h
  split at h
  · cases h
  · split at h
    · cases h
    · simp only [] at h
      split at h
      · cases h
      · rename_i s2 hw
        cases h
        split at hw
        · exact on_window_counter _ _ _ _ _ _ hw hc
        · cases hw
      · rename_i s2 hw
        have h2 : s2.counter < limit := by
          split at hw
          · exact (on_window_counter _ _ _ _ _ _ hw hc).2 rfl
          · cases hw
            exact hc
        split at h
        · cases h
        · cases h
          exact ⟨Nat.le_of_lt h2, fun _ => h2⟩

theorem on_byte_counter (crc : List Nat → Nat) (G W limit byte : Nat) (s s1 : State)
    (brk : Bool) (h : on_byte crc G W limit byte s = some (brk, s1)) (hc : s.counter < limit) :
    s1.counter ≤ limit ∧ (brk = false → s1.counter < limit) := by
  unfold on_byte at h
  split at h
  · cases h
  · simp only [] at h
    split at h
    · exact on_gram_counter _ _ _ _ _ _ _ h hc
    · cases h
      exact ⟨Nat.le_of_lt hc, fun _ => hc⟩

theorem body_counter (crc : List Nat → Nat) (G W limit c : Nat) (s s1 : State) (brk : Bool)
    (h : body crc G W limit c s = some (brk, s1)) (hc : s.counter < limit) :
    s1.counter ≤ limit ∧ (brk = false → s1.counter < limit) := by
  have hc1 : (if c = 10 then { s with line := u32 (s.line + 1) } else s).counter < limit := by
    split
    · exact hc
    · exact hc
  unfold body at h
  simp only [] at h
  by_cases hz : normalize c = 0
  · rw [if_pos hz] at h
    cases h
    exact ⟨Nat.le_of_lt hc1, fun _ => hc1⟩
  · rw [if_neg hz] at h
    exact on_byte_counter _ _ _ _ _ _ _ _ h hc1

theorem loop_counter (crc : List Nat → Nat) (G W limit : Nat) :
    ∀ (rest : List Nat) (s s1 : State), loop crc G W limit rest s = some s1 →
      s.counter < limit → s1.counter ≤ limit := by
  intro rest
  induction rest with
  | nil =>
    intro s s1 h hc
    cases h
    exact Nat.le_of_lt hc
  | cons c rest ih =>
    intro s s1 h hc
    unfold loop at h
    split at h
    · cases h
    · rename_i s2 hb
      cases h
      exact (body_counter _ _ _ _ _ _ _ _ hb hc).1
    · rename_i s2 hb
      exact ih s2 s1 h ((body_counter _ _ _ _ _ _ _ _ hb hc).2 rfl)

theorem winnowing_total (crc : List Nat → Nat) (G W : Nat) (jg jw : Nat → Nat)
    (src hashes lines : List Nat) (limit : Nat) (hG : 1 ≤ G) (hW : 1 ≤ W)
    (hlim : 1 ≤ limit) (hh : limit ≤ hashes.length) (hl : limit ≤ lines.length) :
    ∃ count hs ls, winnowing crc G W jg jw src hashes lines limit = some (count, hs, ls) :=
  ⟨_, _, _, winnowing_eq_ref crc G W jg jw src hashes lines limit hG hW hlim hh hl⟩

/-- C2. For every input and every limit `L ≥ 1`, a count returned by
`winnowing` is at most `L` (whatever the configuration and the arrays), and
under the call contract (`GRAM ≥ 1`, `WINDOW ≥ 1`, arrays of at least `L`
cells) the routine does return. -/
theorem winnowing_count_le_limit (calc_crc32c : List Nat → Nat) (GRAM WINDOW : Nat)
    (junk_gram junk_window : Nat → Nat) (src hashes lines : List Nat) (L : Nat)
    (hL : 1 ≤ L) :
    (∀ count hs ls,
      winnowing calc_crc32c GRAM WINDOW junk_gram junk_window src hashes lines L =
        some (count, hs, ls) → count ≤ L) ∧
    (1 ≤ GRAM → 1 ≤ WINDOW → L ≤ hashes.length → L ≤ lines.length →
      ∃ count hs ls,
        winnowing calc_crc32c GRAM WINDOW junk_gram junk_window src hashes lines L =
          some (count, hs, ls) ∧ count ≤ L) := by
  have key : ∀ count hs ls,
      winnowing calc_crc32c GRAM WINDOW junk_gram junk_window src hashes lines L =
        some (count, hs, ls) → count ≤ L := by
    intro count hs ls h
    unfold winnowing at h
    split at h
    · cases h
    · rename_i s1 hloop
      cases h
      exact loop_counter _ _ _ _ _ _ _ hloop hL
  refine ⟨key, ?_⟩
  intro hG hW hh hl
  obtain ⟨count, hs, ls, h⟩ := winnowing_total calc_crc32c GRAM WINDOW junk_gram junk_window
    src hashes lines L hG hW hL hh hl
  exact ⟨count, hs, ls, h, key count hs ls h⟩

/-- An instance of C2: the sample input under limit 2 returns a count of at most 2. -/
theorem winnowing_count_le_limit_witness :
    (∀ count hs ls,
      winnowing sample_crc 2 2 (fun _ => 0) (fun _ => 0) sample_src [0, 0] [0, 0] 2 =
        some (count, hs, ls) → count ≤ 2) ∧
    (1 ≤ 2 → 1 ≤ 2 → 2 ≤ [0, 0].length → 2 ≤ [0, 0].length →
      ∃ count hs ls,
        winnowing sample_crc 2 2 (fun _ => 0) (fun _ => 0) sample_src [0, 0] [0, 0] 2 =
          some (count, hs, ls) ∧ count ≤ 2) :=
  winnowing_count_le_limit sample_crc 2 2 (fun _ => 0) (fun _ => 0) sample_src [0, 0] [0, 0] 2
    (by decide)

/-! ## Runs of equal window minima -/

theorem length_destutter'_eq_runs (l : List Nat) :
    ∀ a, (List.destutter' (fun x y => x ≠ y) a l).length = runs (a :: l) := by
  induction l with
  | nil => intro a; rfl
  | cons h l ih =>
    intro a
    show _ = (if a = h then 0 else 1) + runs (h :: l)
    by_cases c : a = h
    · subst c
      rw [List.destutter'_cons_neg _ (by simp), ih, if_pos rfl, Nat.zero_add]
    · rw [List.destutter'_cons_pos _ c, List.length_cons, ih, if_neg c, Nat.add_comm]

/-- The function `runs` counts what is left once consecutive repetitions are removed. -/
theorem runs_eq_length_destutter (l : List Nat) :
    runs l = (l.destutter (fun x y => x ≠ y)).length := by
  cases l with
  | nil => rfl
  | cons a l => rw [List.destutter_cons', length_destutter'_eq_runs]

theorem length_ref_windows_eq (crc : List Nat → Nat) (G W : Nat) (hG : 1 ≤ G) (hW : 1 ≤ W)
    (src : List Nat) :
    (ref_mins crc G W src).length = ((ref_lines src).drop ((G - 1) + (W - 1))).length := by
  rw [length_ref_mins, List.length_drop, length_ref_lines]
  omega

theorem map_fst_ref_windows (crc : List Nat → Nat) (G W : Nat) (hG : 1 ≤ G) (hW : 1 ≤ W)
    (src : List Nat) : (ref_windows crc G W src).map Prod.fst = ref_mins crc G W src := by
  unfold ref_windows
  exact List.map_fst_zip _ _ (Nat.le_of_eq (length_ref_windows_eq crc G W hG hW src))

theorem map_fst_ref_walk (crc : List Nat → Nat) (ws : List (Nat × Nat)) :
    ∀ last, (ref_walk crc last ws).map Prod.fst = walk_hashes crc last (ws.map Prod.fst) := by
  induction ws with
  | nil => intro last; rfl
  | cons w ws ih =>
    intro last
    obtain ⟨m, ln⟩ := w
    by_cases h : m = last
    · simp only [ref_walk, walk_hashes, List.map_cons, h, ne_eq, not_true_eq_false, if_false]
      exact ih last
    · simp only [ref_walk, walk_hashes, List.map_cons, ne_eq, h, not_false_eq_true, if_true]
      rw [ih m]

theorem map_fst_ref_emissions (crc : List Nat → Nat) (G W : Nat) (hG : 1 ≤ G) (hW : 1 ≤ W)
    (src : List Nat) :
    (ref_emissions crc G W src).map Prod.fst =
      walk_hashes crc 0 (ref_minima W (ref_grams crc G (ref_bytes src))) := by
  unfold ref_emissions
  rw [map_fst_ref_walk, map_fst_ref_windows crc G W hG hW]
  rfl

/-- C5, as amended.  Two inputs whose scanned bytes (`src[0 .. src_len)` with
`src_len = strlen(src)` as a `uint32_t`; all of `src` for a C string shorter
than `2 ^ 32` bytes) have the same significant bytes, the non-zero values of
`normalize` in order, give, for every limit `≥ 1`, the same count and the same
`hashes[0 .. count)`. -/
theorem winnowing_format_invariant (calc_crc32c : List Nat → Nat) (GRAM WINDOW : Nat)
    (junk_gram1 junk_window1 junk_gram2 junk_window2 : Nat → Nat)
    (src1 src2 hashes1 lines1 hashes2 lines2 : List Nat) (limit : Nat)
    (hG : 1 ≤ GRAM) (hW : 1 ≤ WINDOW) (hlimit : 1 ≤ limit)
    (hhashes1 : limit ≤ hashes1.length) (hlines1 : limit ≤ lines1.length)
    (hhashes2 : limit ≤ hashes2.length) (hlines2 : limit ≤ lines2.length)
    (hsame : ref_bytes (scanned src1) = ref_bytes (scanned src2)) :
    (∃ count hs1 ls1 hs2 ls2,
      winnowing calc_crc32c GRAM WINDOW junk_gram1 junk_window1 src1 hashes1 lines1 limit =
        some (count, hs1, ls1) ∧
      winnowing calc_crc32c GRAM WINDOW junk_gram2 junk_window2 src2 hashes2 lines2 limit =
        some (count, hs2, ls2) ∧
      hs1.take count = hs2.take count) ∧
    (c_string src1 → scanned src1 = src1) ∧ (c_string src2 → scanned src2 = src2) := by
  have h1 := winnowing_eq_ref calc_crc32c GRAM WINDOW junk_gram1 junk_window1 src1 hashes1
    lines1 limit hG hW hlimit hhashes1 hlines1
  have h2 := winnowing_eq_ref calc_crc32c GRAM WINDOW junk_gram2 junk_window2 src2 hashes2
    lines2 limit hG hW hlimit hhashes2 hlines2
  have hf : (ref_emissions calc_crc32c GRAM WINDOW (scanned src1)).map Prod.fst =
      (ref_emissions calc_crc32c GRAM WINDOW (scanned src2)).map Prod.fst := by
    rw [map_fst_ref_emissions calc_crc32c GRAM WINDOW hG hW,
      map_fst_ref_emissions calc_crc32c GRAM WINDOW hG hW, hsame]
  have hlen : (ref_emissions calc_crc32c GRAM WINDOW (scanned src1)).length =
      (ref_emissions calc_crc32c GRAM WINDOW (scanned src2)).length := by
    have := congrArg List.length hf
    rw [List.length_map, List.length_map] at this
    exact this
  have hc : ((ref_emissions calc_crc32c GRAM WINDOW (scanned src1)).take limit).length =
      ((ref_emissions calc_crc32c GRAM WINDOW (scanned src2)).take limit).length := by
    rw [List.length_take, List.length_take, hlen]
  unfold ref_result at h1 h2
  simp only [] at h1 h2
  rw [← hc] at h2
  refine ⟨⟨_, _, _, _, _, h1, h2, ?_⟩, scanned_of_c_string src1, scanned_of_c_string src2⟩
  rw [List.take_left' (by rw [List.length_map]), hc,
    List.take_left' (by rw [List.length_map]), List.map_take, List.map_take, hf]

/-- An instance of C5 (amended): `"Ab\ncd\nEf"` and `"abcdef"`. -/
theorem winnowing_format_invariant_witness :
    (∃ count hs1 ls1 hs2 ls2,
      winnowing sample_crc 2 2 (fun _ => 0) (fun _ => 0) sample_src [0, 0, 0] [0, 0, 0] 3 =
        some (count, hs1, ls1) ∧
      winnowing sample_crc 2 2 (fun _ => 1) (fun _ => 2) [97, 98, 99, 100, 101, 102]
        [5, 5, 5, 5] [6, 6, 6] 3 = some (count, hs2, ls2) ∧
      hs1.take count = hs2.take count) ∧
    (c_string sample_src → scanned sample_src = sample_src) ∧
    (c_string [97, 98, 99, 100, 101, 102] →
      scanned [97, 98, 99, 100, 101, 102] = [97, 98, 99, 100, 101, 102]) :=
  winnowing_format_invariant sample_crc 2 2 (fun _ => 0) (fun _ => 0) (fun _ => 1) (fun _ => 2)
    sample_src [97, 98, 99, 100, 101, 102] [0, 0, 0] [0, 0, 0] [5, 5, 5, 5] [6, 6, 6] 3
    (by decide) (by decide) (by decide) (by decide) (by decide) (by decide) (by decide)
    (by decide)

/-- C5 fails as stated: `"a"` and `"a"` followed by `2 ^ 32 - 1` spaces have the
same significant bytes, yet (`GRAM = WINDOW = 1`, limit 1) the first gives one
entry and the second, whose `src_len` is 0, gives none. -/
theorem long_padding_changes_count :
    ref_bytes [97] = ref_bytes (97 :: List.replicate 4294967295 32) ∧
    winnowing sample_crc 1 1 (fun _ => 0) (fun _ => 0) [97] [0] [0] 1 =
      some (1, [3361], [1]) ∧
    winnowing sample_crc 1 1 (fun _ => 0) (fun _ => 0) (97 :: List.replicate 4294967295 32)
      [0] [0] 1 = some (0, [0], [0]) := by
  refine ⟨?_, by decide, winnowing_of_scanned_nil _ _ _ _ _ _ _ _ _
    (scanned_wrap 97 32 (by decide) (by decide))⟩
  have h : ref_bytes (97 :: List.replicate 4294967295 32) =
      ref_bytes [97] ++ ref_bytes (List.replicate 4294967295 32) := by
    unfold ref_bytes
    rw [← List.filter_append, ← List.map_append, List.singleton_append]
  rw [h, ref_bytes_replicate_skip _ _ (by decide), List.append_nil]

/-! ## Which window triggers which entry -/

theorem mem_ref_emitting (m : List Nat) :
    ∀ (last j0 j : Nat), j ∈ ref_emitting last j0 m → j0 ≤ j ∧ j < j0 + m.length := by
  induction m with
  | nil =>
    intro last j0 j h
    simp [ref_emitting] at h
  | cons x m ih =>
    intro last j0 j h
    rw [List.length_cons]
    unfold ref_emitting at h
    by_cases c : x = last
    · rw [if_neg (by simpa using c)] at h
      have := ih last (j0 + 1) j h
      omega
    · rw [if_pos c] at h
      rcases List.mem_cons.mp h with e | e
      · omega
      · have := ih x (j0 + 1) j e
        omega

theorem ref_walk_zip (crc : List Nat → Nat) (m : List Nat) :
    ∀ (L : List Nat) (last j0 : Nat), m.length ≤ L.length →
      ref_walk crc last (List.zip m L) =
        (ref_emitting last j0 m).map
          (fun j => (crc32 crc (raw_bytes (m.getD (j - j0) 0)), L.getD (j - j0) 0)) := by
  induction m with
  | nil =>
    intro L last j0 _
    rfl
  | cons x m ih =>
    intro L last j0 hl
    cases L with
    | nil => simp at hl
    | cons y L =>
      rw [List.length_cons, List.length_cons] at hl
      have hl1 : m.length ≤ L.length := by omega
      have hcongr : ∀ lst, (ref_emitting lst (j0 + 1) m).map
            (fun j => (crc32 crc (raw_bytes (m.getD (j - (j0 + 1)) 0)),
              L.getD (j - (j0 + 1)) 0)) =
          (ref_emitting lst (j0 + 1) m).map
            (fun j => (crc32 crc (raw_bytes ((x :: m).getD (j - j0) 0)),
              (y :: L).getD (j - j0) 0)) := by
        intro lst
        apply List.map_congr_left
        intro j hj
        have hb := mem_ref_emitting m lst (j0 + 1) j hj
        have e : j - j0 = (j - (j0 + 1)) + 1 := by omega
        rw [e, List.getD_cons_succ, List.getD_cons_succ]
      rw [List.zip_cons_cons]
      unfold ref_walk ref_emitting
      by_cases c : x = last
      · rw [if_neg (by simpa using c), if_neg (by simpa using c), ih L last (j0 + 1) hl1,
          hcongr]
      · rw [if_pos c, if_pos c, ih L x (j0 + 1) hl1, hcongr, List.map_cons, Nat.sub_self,
          List.getD_cons_zero, List.getD_cons_zero]

theorem ref_emissions_eq_map (crc : List Nat → Nat) (G W : Nat) (hG : 1 ≤ G) (hW : 1 ≤ W)
    (src : List Nat) :
    ref_emissions crc G W src =
      (ref_emitting 0 0 (ref_mins crc G W src)).map
        (fun j => (crc32 crc (raw_bytes ((ref_mins crc G W src).getD j 0)),
          ((ref_lines src).drop ((G - 1) + (W - 1))).getD j 0)) := by
  unfold ref_emissions ref_windows
  rw [ref_walk_zip crc _ _ 0 0 (Nat.le_of_eq (length_ref_windows_eq crc G W hG hW src))]
  rfl

theorem prefix_getElem?_some {l1 l2 : List Nat} (h : l1 <+: l2) {n a : Nat}
    (e : l1[n]? = some a) : l2[n]? = some a := by
  obtain ⟨t, rfl⟩ := h
  obtain ⟨hn, _⟩ := List.getElem?_eq_some.mp e
  rw [List.getElem?_append_left hn]
  exact e

theorem sig_positions_mono (p r : List Nat) : sig_positions p <+: sig_positions (p ++ r) := by
  induction r using List.reverseRecOn with
  | nil => rw [List.append_nil]
  | append_singleton r b ih =>
    rw [← List.append_assoc, sig_positions_snoc]
    exact ih.trans (List.prefix_append _ _)

theorem windows_of_mono (k : Nat) (hk : 1 ≤ k) (l r : List Nat) :
    windows_of k l <+: windows_of k (l ++ r) := by
  induction r using List.reverseRecOn with
  | nil => rw [List.append_nil]
  | append_singleton r b ih =>
    rw [← List.append_assoc, windows_of_snoc k hk]
    exact ih.trans (List.prefix_append _ _)

theorem ref_mins_mono (crc : List Nat → Nat) (G W : Nat) (hG : 1 ≤ G) (hW : 1 ≤ W)
    (p r : List Nat) : ref_mins crc G W p <+: ref_mins crc G W (p ++ r) := by
  have h1 : ref_bytes p <+: ref_bytes (p ++ r) := by
    unfold ref_bytes
    exact ((List.prefix_append p r).map normalize).filter _
  obtain ⟨t1, e1⟩ := h1
  have h2 : ref_grams crc G (ref_bytes p) <+: ref_grams crc G (ref_bytes (p ++ r)) := by
    rw [← e1]
    unfold ref_grams
    exact (windows_of_mono G hG _ _).map _
  obtain ⟨t2, e2⟩ := h2
  unfold ref_mins ref_minima
  rw [← e2]
  exact (windows_of_mono W hW _ _).map _

theorem ref_emitting_mono (m r : List Nat) :
    ∀ last j0, ref_emitting last j0 m <+: ref_emitting last j0 (m ++ r) := by
  induction m with
  | nil =>
    intro last j0
    exact List.nil_prefix
  | cons x m ih =>
    intro last j0
    rw [List.cons_append]
    unfold ref_emitting
    by_cases c : x = last
    · rw [if_neg (by simpa using c), if_neg (by simpa using c)]
      exact ih last (j0 + 1)
    · rw [if_pos c, if_pos c]
      exact (List.prefix_cons_inj j0).mpr (ih x (j0 + 1))

theorem emission_of_result (crc : List Nat → Nat) (G W : Nat) (p hashes lines : List Nat)
    (limit count : Nat) (hs ls : List Nat) (k : Nat) (hG : 1 ≤ G) (hW : 1 ≤ W)
    (h : (count, hs, ls) = ref_result crc G W p hashes lines limit) (hk : k < count) :
    ∃ j i mj,
      (ref_emitting 0 0 (ref_mins crc G W p))[k]? = some j ∧
      (ref_mins crc G W p)[j]? = some mj ∧
      (sig_positions p)[j + (G - 1) + (W - 1)]? = some i ∧
      hs[k]? = some (crc32 crc (raw_bytes mj)) ∧
      ls[k]? = some (line_at p i) := by
  unfold ref_result at h
  simp only [Prod.mk.injEq] at h
  obtain ⟨hc, hhs, hls⟩ := h
  have hE := ref_emissions_eq_map crc G W hG hW p
  have hk1 : k < ((ref_emissions crc G W p).take limit).length := by
    rw [← hc]
    exact hk
  have hk2 := hk1
  rw [List.length_take] at hk2
  have hkJ : k < (ref_emitting 0 0 (ref_mins crc G W p)).length := by
    have := congrArg List.length hE
    rw [List.length_map] at this
    omega
  have hj := mem_ref_emitting _ 0 0 _ (List.getElem_mem hkJ)
  have hjm : (ref_emitting 0 0 (ref_mins crc G W p))[k] < (ref_mins crc G W p).length := by
    omega
  have hjl : (G - 1) + (W - 1) + (ref_emitting 0 0 (ref_mins crc G W p))[k] <
      (sig_positions p).length := by
    have e1 := length_ref_windows_eq crc G W hG hW p
    rw [List.length_drop] at e1
    have e2 : (ref_lines p).length = (sig_positions p).length := by
      unfold ref_lines
      rw [List.length_map]
    omega
  have hek : ((ref_emissions crc G W p).take limit)[k]? =
      some (crc32 crc (raw_bytes ((ref_mins crc G W p)[
          (ref_emitting 0 0 (ref_mins crc G W p))[k]])),
        line_at p ((sig_positions p)[(G - 1) + (W - 1) +
          (ref_emitting 0 0 (ref_mins crc G W p))[k]])) := by
    rw [List.getElem?_take_of_lt (by omega), hE, List.getElem?_map,
      List.getElem?_eq_getElem hkJ, Option.map_some']
    congr 2
    · rw [List.getD_eq_getElem?_getD, List.getElem?_eq_getElem hjm, Option.getD_some]
    · rw [List.getD_eq_getElem?_getD, List.getElem?_drop]
      unfold ref_lines
      rw [List.getElem?_map, List.getElem?_eq_getElem hjl, Option.map_some', Option.getD_some]
  refine ⟨_, (sig_positions p)[(G - 1) + (W - 1) + (ref_emitting 0 0 (ref_mins crc G W p))[k]],
    _, List.getElem?_eq_getElem hkJ, List.getElem?_eq_getElem hjm, ?_, ?_, ?_⟩
  · have e : (ref_emitting 0 0 (ref_mins crc G W p))[k] + (G - 1) + (W - 1) =
        (G - 1) + (W - 1) + (ref_emitting 0 0 (ref_mins crc G W p))[k] := by omega
    rw [e]
    exact List.getElem?_eq_getElem hjl
  · rw [hhs, List.getElem?_append_left (by rw [List.length_map]; exact hk1),
      List.getElem?_map, hek, Option.map_some']
  · rw [hls, List.getElem?_append_left (by rw [List.length_map]; exact hk1),
      List.getElem?_map, hek, Option.map_some']

theorem line_of_emission_aux (crc : List Nat → Nat) (G W : Nat)
    (jg jw : Nat → Nat) (src hashes lines : List Nat) (limit : Nat)
    (count : Nat) (hs ls : List Nat) (k : Nat)
    (hG : 1 ≤ G) (hW : 1 ≤ W) (hlimit : 1 ≤ limit)
    (hres : winnowing crc G W jg jw src hashes lines limit = some (count, hs, ls))
    (hk : k < count) :
    ∃ j i mj,
      (ref_emitting 0 0 (ref_mins crc G W src))[k]? = some j ∧
      (ref_mins crc G W src)[j]? = some mj ∧
      (sig_positions src)[j + (G - 1) + (W - 1)]? = some i ∧
      hs[k]? = some (crc32 crc (raw_bytes mj)) ∧
      ls[k]? = some (line_at src i) := by
  have h := winnowing_some_eq_ref crc G W jg jw src hashes lines limit _ hG hW hlimit hres
  obtain ⟨j, i, mj, e1, e2, e3, e4, e5⟩ := emission_of_result crc G W
    (scanned src) hashes lines limit count hs ls k hG hW h hk
  obtain ⟨r, hr⟩ : scanned src <+: src := List.take_prefix _ _
  have hm := ref_mins_mono crc G W hG hW (scanned src) r
  have hi : i < (scanned src).length :=
    sig_positions_lt _ i (List.getElem?_mem e3)
  rw [hr] at hm
  obtain ⟨t, ht⟩ := hm
  have hJ := ref_emitting_mono (ref_mins crc G W (scanned src)) t 0 0
  rw [ht] at hJ
  have hS := sig_positions_mono (scanned src) r
  rw [hr] at hS
  refine ⟨j, i, mj, prefix_getElem?_some hJ e1, prefix_getElem?_some ⟨t, ht⟩ e2,
    prefix_getElem?_some hS e3, e4, ?_⟩
  have hline := line_at_append (scanned src) r i hi
  rw [hr] at hline
  rw [e5, hline]

/-! ### Degenerate configurations produce no entry -/

theorem store_none_of_empty (buf : List Nat) (i v : Nat) (h : buf.length = 0) :
    store buf i v = none := by
  unfold store
  rw [if_neg (by omega)]

theorem on_gram_none_of_empty (crc : List Nat → Nat) (G W limit : Nat) (s : State)
    (h : s.window_buffer.length = 0) : on_gram crc G W limit s = none := by
  unfold on_gram
  split
  · rfl
  · rw [store_none_of_empty _ _ _ h]

theorem on_byte_degenerate (crc : List Nat → Nat) (G W limit byte : Nat) (s s1 : State)
    (brk : Bool) (hd : s.gram_buffer.length = 0 ∨ s.window_buffer.length = 0)
    (h : on_byte crc G W limit byte s = some (brk, s1)) :
    s1.counter = s.counter ∧ (s1.gram_buffer.length = 0 ∨ s1.window_buffer.length = 0) := by
  unfold on_byte at h
  rcases hd with hd | hd
  · rw [store_none_of_empty _ _ _ hd] at h
    cases h
  · split at h
    · cases h
    · simp only [] at h
      split at h
      · rw [on_gram_none_of_empty] at h
        · cases h
        · exact hd
      · cases h
        exact ⟨rfl, Or.inr hd⟩

theorem body_degenerate (crc : List Nat → Nat) (G W limit c : Nat) (s s1 : State)
    (brk : Bool) (hd : s.gram_buffer.length = 0 ∨ s.window_buffer.length = 0)
    (h : body crc G W limit c s = some (brk, s1)) :
    s1.counter = s.counter ∧ (s1.gram_buffer.length = 0 ∨ s1.window_buffer.length = 0) := by
  unfold body at h
  simp only [] at h
  by_cases hz : normalize c = 0
  · rw [if_pos hz] at h
    cases h
    by_cases hc : c = 10
    · rw [if_pos hc]
      exact ⟨rfl, hd⟩
    · rw [if_neg hc]
      exact ⟨rfl, hd⟩
  · have hc : c ≠ 10 := by
      intro e
      rw [e] at hz
      exact hz normalize_newline
    rw [if_neg hz, if_neg hc] at h
    exact on_byte_degenerate _ _ _ _ _ _ _ _ hd h

theorem loop_degenerate (crc : List Nat → Nat) (G W limit : Nat) :
    ∀ (rest : List Nat) (s s1 : State),
      (s.gram_buffer.length = 0 ∨ s.window_buffer.length = 0) →
      loop crc G W limit rest s = some s1 → s1.counter = s.counter := by
  intro rest
  induction rest with
  | nil =>
    intro s s1 _ h
    cases h
    rfl
  | cons c rest ih =>
    intro s s1 hd h
    unfold loop at h
    split at h
    · cases h
    · rename_i s2 hb
      cases h
      exact (body_degenerate _ _ _ _ _ _ _ _ hd hb).1
    · rename_i s2 hb
      obtain ⟨e1, e2⟩ := body_degenerate _ _ _ _ _ _ _ _ hd hb
      rw [ih s2 s1 e2 h, e1]

/-- With `GRAM = 0` or `WINDOW = 0` a run that returns has produced no entry. -/
theorem winnowing_degenerate (crc : List Nat → Nat) (G W : Nat) (jg jw : Nat → Nat)
    (src hashes lines : List Nat) (limit count : Nat) (hs ls : List Nat)
    (hd : G = 0 ∨ W = 0)
    (hres : winnowing crc G W jg jw src hashes lines limit = some (count, hs, ls)) :
    count = 0 := by
  unfold winnowing at hres
  split at hres
  · cases hres
  · rename_i s1 hloop
    cases hres
    refine loop_degenerate _ _ _ _ _ _ s1 ?_ hloop
    rcases hd with hd | hd
    · left
      show (malloc (G * BUFFER_RATE) jg).length = 0
      rw [length_malloc, hd, Nat.zero_mul]
    · right
      show (malloc (W * BUFFER_RATE) jw).length = 0
      rw [length_malloc, hd, Nat.zero_mul]

/-! ### A run under limit 0 that produces an entry is a run under limit 1 -/

theorem on_window_limit_zero (crc : List Nat → Nat) (W : Nat) (s s1 : State) (brk : Bool)
    (h : on_window crc W 0 s = some (brk, s1)) :
    brk = true ∧ (1 ≤ s1.counter → on_window crc W 1 s = some (brk, s1)) := by
  unfold on_window at h ⊢
  split at h
  · cases h
  · split at h
    · cases h
    · simp only [] at h ⊢
      rw [if_pos (Nat.zero_le _)] at h
      cases h
      refine ⟨rfl, fun hc => ?_⟩
      simp only [] at hc
      rw [if_pos hc]

theorem on_gram_limit_zero (crc : List Nat → Nat) (G W : Nat) (s s1 : State) (brk : Bool)
    (h : on_gram crc G W 0 s = some (brk, s1)) (hc : brk = true → 1 ≤ s1.counter) :
    on_gram crc G W 1 s = some (brk, s1) := by
  unfold on_gram at h ⊢
  split at h
  · cases h
  · split at h
    · cases h
    · simp only [] at h ⊢
      split at h
      · cases h
      · rename_i s2 hw
        cases h
        split at hw
        · rename_i hfull
          rw [if_pos hfull, ((on_window_limit_zero _ _ _ _ _ hw).2 (hc rfl))]
        · cases hw
      · rename_i s2 hw
        split at hw
        · have := (on_window_limit_zero _ _ _ _ _ hw).1
          cases this
        · rename_i hfull
          cases hw
          rw [if_neg hfull]
          exact h

theorem on_byte_limit_zero (crc : List Nat → Nat) (G W byte : Nat) (s s1 : State)
    (brk : Bool) (h : on_byte crc G W 0 byte s = some (brk, s1))
    (hc : brk = true → 1 ≤ s1.counter) :
    on_byte crc G W 1 byte s = some (brk, s1) := by
  unfold on_byte at h ⊢
  split at h
  · cases h
  · simp only [] at h ⊢
    split at h
    · rename_i hfull
      rw [if_pos hfull]
      exact on_gram_limit_zero _ _ _ _ _ _ h hc
    · rename_i hfull
      rw [if_neg hfull]
      exact h

theorem body_limit_zero (crc : List Nat → Nat) (G W c : Nat) (s s1 : State) (brk : Bool)
    (h : body crc G W 0 c s = some (brk, s1)) (hc : brk = true → 1 ≤ s1.counter) :
    body crc G W 1 c s = some (brk, s1) := by
  unfold body at h ⊢
  simp only [] at h ⊢
  by_cases hz : normalize c = 0
  · rw [if_pos hz] at h ⊢
    exact h
  · rw [if_neg hz] at h ⊢
    exact on_byte_limit_zero _ _ _ _ _ _ _ h hc

theorem loop_limit_zero (crc : List Nat → Nat) (G W : Nat) :
    ∀ (rest : List Nat) (s s1 : State), loop crc G W 0 rest s = some s1 →
      1 ≤ s1.counter → loop crc G W 1 rest s = some s1 := by
  intro rest
  induction rest with
  | nil =>
    intro s s1 h _
    exact h
  | cons c rest ih =>
    intro s s1 h hc
    unfold loop at h ⊢
    split at h
    · cases h
    · rename_i s2 hb
      cases h
      rw [body_limit_zero _ _ _ _ _ _ _ hb (fun _ => hc)]
    · rename_i s2 hb
      rw [body_limit_zero _ _ _ _ _ _ _ hb (fun e => by cases e)]
      exact ih s2 s1 h hc

theorem winnowing_limit_zero (crc : List Nat → Nat) (G W : Nat) (jg jw : Nat → Nat)
    (src hashes lines : List Nat) (count : Nat) (hs ls : List Nat)
    (hres : winnowing crc G W jg jw src hashes lines 0 = some (count, hs, ls))
    (hc : 1 ≤ count) :
    winnowing crc G W jg jw src hashes lines 1 = some (count, hs, ls) := by
  unfold winnowing at hres ⊢
  split at hres
  · cases hres
  · rename_i s1 hloop
    have e : s1.counter = count := congrArg Prod.fst (Option.some.inj hres)
    rw [loop_limit_zero _ _ _ _ _ s1 hloop (by omega)]
    exact hres

/-- C6. Every entry `k < count` written by `winnowing` (for every
configuration, input, limit and arrays) comes from one window `j`, the `k`-th
window whose minimum differs from `last`: `hashes[k]` is the checksum of the
four bytes of that window's minimum, and `lines[k]` is one more than the number
of newline bytes of the raw input at positions up to the significant byte that
completed the window, which is significant byte number
`j + (GRAM - 1) + (WINDOW - 1)`. -/
theorem line_of_emission (calc_crc32c : List Nat → Nat) (GRAM WINDOW : Nat)
    (junk_gram junk_window : Nat → Nat) (src hashes lines : List Nat) (limit : Nat)
    (count : Nat) (hs ls : List Nat) (k : Nat)
    (hres : winnowing calc_crc32c GRAM WINDOW junk_gram junk_window src hashes lines limit =
      some (count, hs, ls))
    (hk : k < count) :
    ∃ j i mj,
      (ref_emitting 0 0 (ref_mins calc_crc32c GRAM WINDOW src))[k]? = some j ∧
      (ref_mins calc_crc32c GRAM WINDOW src)[j]? = some mj ∧
      (sig_positions src)[j + (GRAM - 1) + (WINDOW - 1)]? = some i ∧
      hs[k]? = some (crc32 calc_crc32c (raw_bytes mj)) ∧
      ls[k]? = some (line_at src i) := by
  by_cases hd : GRAM = 0 ∨ WINDOW = 0
  · have := winnowing_degenerate _ _ _ _ _ _ _ _ _ _ _ _ hd hres
    omega
  · have hG : 1 ≤ GRAM := by omega
    have hW : 1 ≤ WINDOW := by omega
    by_cases hl : limit = 0
    · subst hl
      exact line_of_emission_aux calc_crc32c GRAM WINDOW junk_gram junk_window src hashes
        lines 1 count hs ls k hG hW (Nat.le_refl _)
        (winnowing_limit_zero _ _ _ _ _ _ _ _ _ _ _ hres (by omega)) hk
    · exact line_of_emission_aux calc_crc32c GRAM WINDOW junk_gram junk_window src hashes
        lines limit count hs ls k hG hW (by omega) hres hk

/-- An instance of C6: entry 2 of the sample run comes from window 2, completed
by the significant byte at raw position 6, on line 3. -/
theorem line_of_emission_witness :
    ∃ j i mj,
      (ref_emitting 0 0 (ref_mins sample_crc 2 2 sample_src))[2]? = some j ∧
      (ref_mins sample_crc 2 2 sample_src)[j]? = some mj ∧
      (sig_positions sample_src)[j + (2 - 1) + (2 - 1)]? = some i ∧
      [33363, 3860, 39878][2]? = some (crc32 sample_crc (raw_bytes mj)) ∧
      [2, 2, 3][2]? = some (line_at sample_src i) :=
  line_of_emission sample_crc 2 2 (fun _ => 0) (fun _ => 0) sample_src [0, 0, 0] [0, 0, 0] 3
    3 [33363, 3860, 39878] [2, 2, 3] 2 (by decide) (by decide)

/-! ## Line numbers are ordered -/

theorem line_at_mono (src : List Nat) (i j : Nat) (h : i ≤ j) :
    line_at src i ≤ line_at src j := by
  unfold line_at
  have := (List.take_prefix_take_left src (Nat.add_le_add_right h 1)).count_le 10
  omega

theorem pairwise_ref_lines (src : List Nat) : (ref_lines src).Pairwise (fun a b => a ≤ b) := by
  unfold ref_lines sig_positions
  exact ((List.pairwise_lt_range src.length).filter _).map _
    (fun a b hab => line_at_mono src a b (Nat.le_of_lt hab))

theorem one_le_ref_lines (src : List Nat) : ∀ x ∈ ref_lines src, 1 ≤ x := by
  intro x hx
  unfold ref_lines at hx
  obtain ⟨i, _, rfl⟩ := List.mem_map.mp hx
  unfold line_at
  omega

theorem map_snd_ref_walk_sublist (crc : List Nat → Nat) (ws : List (Nat × Nat)) :
    ∀ last, ((ref_walk crc last ws).map Prod.snd).Sublist (ws.map Prod.snd) := by
  induction ws with
  | nil =>
    intro last
    exact List.Sublist.refl _
  | cons w ws ih =>
    intro last
    obtain ⟨m, ln⟩ := w
    unfold ref_walk
    by_cases c : m = last
    · rw [if_neg (by simpa using c), List.map_cons]
      exact (ih last).cons _
    · rw [if_pos c, List.map_cons, List.map_cons]
      exact (ih m).cons₂ _

theorem map_snd_zip_sublist (a : List Nat) :
    ∀ b : List Nat, ((List.zip a b).map Prod.snd).Sublist b := by
  induction a with
  | nil =>
    intro b
    rw [List.zip_nil_left]
    exact List.nil_sublist _
  | cons x a ih =>
    intro b
    cases b with
    | nil =>
      rw [List.zip_nil_right]
      exact List.Sublist.refl _
    | cons y b =>
      rw [List.zip_cons_cons, List.map_cons]
      exact (ih b).cons₂ _

theorem map_snd_ref_emissions_sublist (crc : List Nat → Nat) (G W : Nat) (src : List Nat)
    (limit : Nat) :
    (((ref_emissions crc G W src).take limit).map Prod.snd).Sublist (ref_lines src) := by
  refine ((List.take_sublist _ _).map _).trans ?_
  unfold ref_emissions
  refine (map_snd_ref_walk_sublist crc _ 0).trans ?_
  unfold ref_windows
  exact (map_snd_zip_sublist _ _).trans (List.drop_sublist _ _)

theorem LinesBelow.raise_top {count : Nat} {ls : List Nat} {top top1 : Nat}
    (h : LinesBelow count ls top) (hle : top ≤ top1) : LinesBelow count ls top1 := by
  intro i j hij hj
  obtain ⟨a, b, e1, e2, e3, e4, e5⟩ := h i j hij hj
  exact ⟨a, b, e1, e2, e3, e4, e5.trans hle⟩

theorem add_hash_lines (crc : List Nat → Nat) (hash line : Nat) (hashes lines : List Nat)
    (last counter : Nat) (r : Nat × List Nat × List Nat × Nat)
    (h : add_hash crc hash line hashes lines last counter = some r)
    (hok : LinesBelow counter lines line) (hline : 1 ≤ line) :
    LinesBelow r.2.2.2 r.2.2.1 line := by
  unfold add_hash at h
  split at h
  · split at h
    · cases h
    · split at h
      · cases h
      · rename_i lines1 hstore
        cases h
        unfold store at hstore
        split at hstore
        · rename_i hlt
          cases hstore
          have hc : u32 (counter + 1) ≤ counter + 1 := Nat.mod_le _ _
          intro i j hij hj
          simp only [] at hj ⊢
          have hself : (lines.set counter line)[counter]? = some line := by
            rw [List.getElem?_set_self hlt]
          by_cases cj : j = counter
          · by_cases ci : i = counter
            · rw [ci, cj]
              exact ⟨line, line, hself, hself, hline, Nat.le_refl _, Nat.le_refl _⟩
            · obtain ⟨a, _, e1, _, e3, e4, e5⟩ := hok i i (Nat.le_refl _) (by omega)
              refine ⟨a, line, ?_, by rw [cj]; exact hself, e3, e4.trans e5, Nat.le_refl _⟩
              rw [List.getElem?_set_ne (fun e => ci e.symm)]
              exact e1
          · obtain ⟨a, b, e1, e2, e3, e4, e5⟩ := hok i j hij (by omega)
            refine ⟨a, b, ?_, ?_, e3, e4, e5⟩
            · rw [List.getElem?_set_ne (by omega)]
              exact e1
            · rw [List.getElem?_set_ne (fun e => cj e.symm)]
              exact e2
        · cases hstore
  · cases h
    exact hok

theorem on_window_transfer (crc : List Nat → Nat) (W limit : Nat) (s s1 : State) (brk : Bool)
    (Q : Nat → List Nat → List Nat → Prop)
    (h : on_window crc W limit s = some (brk, s1))
    (hadd : ∀ hash r, add_hash crc hash s.line s.hashes s.lines s.last s.counter = some r →
      Q r.2.2.2 r.2.1 r.2.2.1) :
    Q s1.counter s1.hashes s1.lines ∧ s1.line = s.line := by
  unfold on_window at h
  split at h
  · cases h
  · split at h
    · cases h
    · rename_i hadd1
      have hl := hadd _ _ hadd1
      simp only [] at hl h
      split at h
      · cases h
        exact ⟨hl, rfl⟩
      · split at h
        · cases h
        · cases h
          exact ⟨hl, rfl⟩

theorem on_gram_transfer (crc : List Nat → Nat) (G W limit : Nat) (s s1 : State) (brk : Bool)
    (Q : Nat → List Nat → List Nat → Prop)
    (h : on_gram crc G W limit s = some (brk, s1))
    (hadd : ∀ hash r, add_hash crc hash s.line s.hashes s.lines s.last s.counter = some r →
      Q r.2.2.2 r.2.1 r.2.2.1)
    (hkeep : Q s.counter s.hashes s.lines) :
    Q s1.counter s1.hashes s1.lines ∧ s1.line = s.line := by
  unfold on_gram at h
  split at h
  · cases h
  · split at h
    · cases h
    · simp only [] at h
      split at h
      · cases h
      · rename_i s2 hw
        cases h
        split at hw
        · have h3 := on_window_transfer _ _ _ _ _ _ Q hw hadd
          exact h3
        · cases hw
      · rename_i s2 hw
        have h2 : Q s2.counter s2.hashes s2.lines ∧ s2.line = s.line := by
          split at hw
          · have h3 := on_window_transfer _ _ _ _ _ _ Q hw hadd
            exact h3
          · cases hw
            exact ⟨hkeep, rfl⟩
        split at h
        · cases h
        · cases h
          exact h2

theorem on_byte_transfer (crc : List Nat → Nat) (G W limit byte : Nat) (s s1 : State)
    (brk : Bool) (Q : Nat → List Nat → List Nat → Prop)
    (h : on_byte crc G W limit byte s = some (brk, s1))
    (hadd : ∀ hash r, add_hash crc hash s.line s.hashes s.lines s.last s.counter = some r →
      Q r.2.2.2 r.2.1 r.2.2.1)
    (hkeep : Q s.counter s.hashes s.lines) :
    Q s1.counter s1.hashes s1.lines ∧ s1.line = s.line := by
  unfold on_byte at h
  split at h
  · cases h
  · simp only [] at h
    split at h
    · have h3 := on_gram_transfer _ _ _ _ _ _ _ Q h hadd hkeep
      exact h3
    · cases h
      exact ⟨hkeep, rfl⟩

theorem body_lines (crc : List Nat → Nat) (G W limit c : Nat) (s s1 : State) (brk : Bool)
    (k : Nat) (h : body crc G W limit c s = some (brk, s1))
    (hok : LinesBelow s.counter s.lines s.line) (hline : 1 ≤ s.line)
    (hk : s.line ≤ k + 1) :
    LinesBelow s1.counter s1.lines (k + 2) ∧
      (k + 2 < 4294967296 →
        LinesBelow s1.counter s1.lines s1.line ∧ 1 ≤ s1.line ∧ s1.line ≤ k + 2) := by
  unfold body at h
  simp only [] at h
  by_cases hz : normalize c = 0
  · rw [if_pos hz] at h
    cases h
    by_cases hc : c = 10
    · rw [if_pos hc]
      refine ⟨hok.raise_top (by omega), fun hlt => ?_⟩
      have hu : u32 (s.line + 1) = s.line + 1 := Nat.mod_eq_of_lt (by omega)
      simp only []
      rw [hu]
      exact ⟨hok.raise_top (Nat.le_succ _), by omega, by omega⟩
    · rw [if_neg hc]
      exact ⟨hok.raise_top (by omega), fun _ => ⟨hok, hline, by omega⟩⟩
  · have hc : c ≠ 10 := by
      intro e
      rw [e] at hz
      exact hz normalize_newline
    rw [if_neg hz, if_neg hc] at h
    obtain ⟨h1, h2⟩ := on_byte_transfer _ _ _ _ _ _ _ _
      (fun c _ l => LinesBelow c l s.line) h
      (fun hash r hadd => add_hash_lines _ _ _ _ _ _ _ _ hadd hok hline) hok
    exact ⟨h1.raise_top (by omega), fun _ => ⟨by rw [h2]; exact h1, by omega, by omega⟩⟩

theorem loop_lines (crc : List Nat → Nat) (G W limit : Nat) :
    ∀ (rest : List Nat) (s s1 : State) (k : Nat),
      loop crc G W limit rest s = some s1 →
      LinesBelow s.counter s.lines s.line → 1 ≤ s.line → s.line ≤ k + 1 →
      k + rest.length < 4294967296 →
      LinesBelow s1.counter s1.lines (k + rest.length + 1) := by
  intro rest
  induction rest with
  | nil =>
    intro s s1 k h hok _ hk _
    cases h
    exact hok.raise_top (by simpa using hk)
  | cons c rest ih =>
    intro s s1 k h hok hline hk hlen
    rw [List.length_cons] at hlen ⊢
    unfold loop at h
    split at h
    · cases h
    · rename_i s2 hb
      cases h
      exact (body_lines _ _ _ _ _ _ _ _ k hb hok hline hk).1.raise_top (by omega)
    · rename_i s2 hb
      obtain ⟨h1, h2⟩ := body_lines _ _ _ _ _ _ _ _ k hb hok hline hk
      cases rest with
      | nil =>
        cases h
        exact h1.raise_top (by simp)
      | cons d rest =>
        rw [List.length_cons] at hlen
        obtain ⟨e1, e2, e3⟩ := h2 (by omega)
        have := ih s2 s1 (k + 1) h e1 e2 e3 (by rw [List.length_cons]; omega)
        exact this.raise_top (by rw [List.length_cons]; omega)

/-- C7. For every input and limit (and every configuration and arrays), the
line numbers written by `winnowing` are at least 1 and non-decreasing: for
`i ≤ j < count`, `1 ≤ lines[i] ≤ lines[j]`. -/
theorem lines_monotone (calc_crc32c : List Nat → Nat) (GRAM WINDOW : Nat)
    (junk_gram junk_window : Nat → Nat) (src hashes lines : List Nat) (limit : Nat)
    (count : Nat) (hs ls : List Nat) (i j : Nat)
    (hres : winnowing calc_crc32c GRAM WINDOW junk_gram junk_window src hashes lines limit =
      some (count, hs, ls))
    (hij : i ≤ j) (hj : j < count) :
    ∃ a b, ls[i]? = some a ∧ ls[j]? = some b ∧ 1 ≤ a ∧ a ≤ b := by
  unfold winnowing at hres
  split at hres
  · cases hres
  · rename_i s1 hloop
    cases hres
    have h := loop_lines calc_crc32c GRAM WINDOW limit (scanned src) _ s1 0 hloop
      (by
        intro i j _ hj
        exact absurd hj (Nat.not_lt_zero _))
      (Nat.le_refl _) (Nat.le_refl _)
      (by rw [Nat.zero_add]; exact length_scanned src)
    obtain ⟨a, b, e1, e2, e3, e4, _⟩ := h i j hij hj
    exact ⟨a, b, e1, e2, e3, e4⟩

/-- An instance of C7: entries 1 and 2 of the sample run are on lines 2 and 3. -/
theorem lines_monotone_witness :
    ∃ a b, [2, 2, 3][1]? = some a ∧ [2, 2, 3][2]? = some b ∧ 1 ≤ a ∧ a ≤ b :=
  lines_monotone sample_crc 2 2 (fun _ => 0) (fun _ => 0) sample_src [0, 0, 0] [0, 0, 0] 3
    3 [33363, 3860, 39878] [2, 2, 3] 1 2 (by decide) (by decide) (by decide)

/-! ## Short inputs -/

theorem ref_bytes_cons (b : Nat) (rest : List Nat) :
    ref_bytes (b :: rest) =
      (if normalize b ≠ 0 then [normalize b] else []) ++ ref_bytes rest := by
  unfold ref_bytes
  rw [List.map_cons, List.filter_cons]
  by_cases h : normalize b = 0 <;> simp [h]

theorem loop_short (crc : List Nat → Nat) (G W limit : Nat) :
    ∀ (rest : List Nat) (s : State),
      s.gram_ptr + (ref_bytes rest).length < G →
      s.gram + s.gram_ptr + (ref_bytes rest).length ≤ s.gram_buffer.length →
      ∃ s1, loop crc G W limit rest s = some s1 ∧ s1.counter = s.counter ∧
        s1.hashes = s.hashes ∧ s1.lines = s.lines := by
  intro rest
  induction rest with
  | nil =>
    intro s _ _
    exact ⟨s, rfl, rfl, rfl, rfl⟩
  | cons b rest ih =>
    intro s h1 h2
    rw [ref_bytes_cons, List.length_append] at h1 h2
    unfold loop body
    simp only []
    by_cases hz : normalize b = 0
    · rw [if_pos hz]
      simp only []
      rw [if_neg (by simpa using hz), List.length_nil] at h1 h2
      by_cases hb : b = 10
      · rw [if_pos hb]
        obtain ⟨s1, e1, e2, e3, e4⟩ := ih { s with line := u32 (s.line + 1) }
          (by simpa using h1) (by simpa using h2)
        exact ⟨s1, e1, e2, e3, e4⟩
      · rw [if_neg hb]
        obtain ⟨s1, e1, e2, e3, e4⟩ := ih s (by simpa using h1) (by simpa using h2)
        exact ⟨s1, e1, e2, e3, e4⟩
    · have hb : b ≠ 10 := by
        intro h
        rw [h] at hz
        exact hz normalize_newline
      rw [if_neg hz, if_neg hb]
      rw [if_pos hz, List.length_singleton] at h1 h2
      unfold on_byte
      rw [store_eq_some _ _ _ (by omega)]
      simp only []
      rw [if_neg (by omega)]
      simp only []
      obtain ⟨s1, e1, e2, e3, e4⟩ := ih
        { s with gram_buffer := s.gram_buffer.set (s.gram + s.gram_ptr) (normalize b),
                 gram_ptr := s.gram_ptr + 1 }
        (by simp only []; omega) (by simp only [List.length_set]; omega)
      exact ⟨s1, e1, e2, e3, e4⟩

theorem length_ref_bytes_scanned (src : List Nat) :
    (ref_bytes (scanned src)).length ≤ (ref_bytes src).length := by
  unfold ref_bytes scanned
  exact (((List.take_sublist _ src).map normalize).filter _).length_le

/-- C8. An input with fewer than `GRAM` significant bytes makes `winnowing`
return normally with count 0, `hashes` and `lines` being left as the caller
supplied them. -/
theorem short_input_no_output (calc_crc32c : List Nat → Nat) (GRAM WINDOW : Nat)
    (junk_gram junk_window : Nat → Nat) (src hashes lines : List Nat) (limit : Nat)
    (hshort : (ref_bytes src).length < GRAM) :
    winnowing calc_crc32c GRAM WINDOW junk_gram junk_window src hashes lines limit =
      some (0, hashes, lines) := by
  have hs := length_ref_bytes_scanned src
  obtain ⟨s1, e1, e2, e3, e4⟩ := loop_short calc_crc32c GRAM WINDOW limit (scanned src)
    (init GRAM WINDOW junk_gram junk_window hashes lines)
    (by show 0 + _ < GRAM; omega)
    (by
      show 0 + 0 + _ ≤ (malloc (GRAM * BUFFER_RATE) junk_gram).length
      rw [length_malloc]
      unfold BUFFER_RATE
      omega)
  unfold winnowing
  rw [e1]
  simp only []
  rw [e2, e3, e4]
  rfl

/-- An instance of C8: six significant bytes under the default `GRAM = 30`,
`WINDOW = 64`. -/
theorem short_input_no_output_witness :
    winnowing sample_crc 30 64 (fun _ => 0) (fun _ => 0) sample_src [7, 8] [9] 5 =
      some (0, [7, 8], [9]) :=
  short_input_no_output sample_crc 30 64 (fun _ => 0) (fun _ => 0) sample_src [7, 8] [9] 5
    (by decide)

/-! ## Early termination -/

theorem strlen_le_strlen_append (src t : List Nat) : strlen src ≤ strlen (src ++ t) := by
  induction src with
  | nil => exact Nat.zero_le _
  | cons c rest ih =>
    rw [List.cons_append]
    unfold strlen
    by_cases h : c = 0
    · rw [if_pos h, if_pos h]
    · rw [if_neg h, if_neg h]
      omega

theorem scanned_mono (src t : List Nat) (hlen : (src ++ t).length < 4294967296) :
    scanned src <+: scanned (src ++ t) := by
  have h1 := strlen_le_length src
  have h2 := strlen_le_length (src ++ t)
  have h3 := strlen_le_strlen_append src t
  have h4 : src.length ≤ (src ++ t).length := by
    rw [List.length_append]
    omega
  have h5 : (src ++ t).take (strlen src) = src.take (strlen src) :=
    List.take_append_of_le_length h1
  unfold scanned u32
  rw [Nat.mod_eq_of_lt (by omega), Nat.mod_eq_of_lt (by omega), ← h5]
  exact List.take_prefix_take_left _ h3

theorem loop_append_of_break (crc : List Nat → Nat) (G W limit : Nat) (t : List Nat) :
    ∀ (rest : List Nat) (s s1 : State), loop crc G W limit rest s = some s1 →
      s.counter < limit → limit ≤ s1.counter →
      loop crc G W limit (rest ++ t) s = some s1 := by
  intro rest
  induction rest with
  | nil =>
    intro s s1 h hc hfull
    cases h
    omega
  | cons c rest ih =>
    intro s s1 h hc hfull
    rw [List.cons_append]
    unfold loop at h ⊢
    split at h
    · cases h
    · rename_i s2 hb
      cases h
      rfl
    · rename_i s2 hb
      exact ih s2 s1 h ((body_counter _ _ _ _ _ _ _ _ hb hc).2 rfl) hfull

theorem scanned_mono_strlen (src t : List Nat) (hlen : strlen (src ++ t) < 4294967296) :
    scanned src <+: scanned (src ++ t) := by
  have h1 := strlen_le_length src
  have h3 := strlen_le_strlen_append src t
  have h5 : (src ++ t).take (strlen src) = src.take (strlen src) :=
    List.take_append_of_le_length h1
  unfold scanned u32
  rw [Nat.mod_eq_of_lt (by omega), Nat.mod_eq_of_lt (by omega), ← h5]
  exact List.take_prefix_take_left _ h3

/-- C9, as amended.  When `winnowing(src, L)` returns `L` (with `L ≥ 1`),
appending a continuation `t` such that `strlen(src ++ t)` still fits
`uint32_t src_len` (it is below `2 ^ 32`) leaves the count and both arrays as
they were: the scan stops once the limit is reached. -/
theorem early_termination (calc_crc32c : List Nat → Nat) (GRAM WINDOW : Nat)
    (junk_gram junk_window : Nat → Nat) (src t hashes lines : List Nat) (L : Nat)
    (hs ls : List Nat) (hL : 1 ≤ L)
    (hlen : strlen (src ++ t) < 4294967296)
    (hres : winnowing calc_crc32c GRAM WINDOW junk_gram junk_window src hashes lines L =
      some (L, hs, ls)) :
    winnowing calc_crc32c GRAM WINDOW junk_gram junk_window (src ++ t) hashes lines L =
      some (L, hs, ls) := by
  obtain ⟨r, hr⟩ := scanned_mono_strlen src t hlen
  unfold winnowing at hres ⊢
  split at hres
  · cases hres
  · rename_i s1 hloop
    have hc : s1.counter = L := congrArg Prod.fst (Option.some.inj hres)
    rw [← hr, loop_append_of_break calc_crc32c GRAM WINDOW L r (scanned src) _ s1 hloop hL
      (Nat.le_of_eq hc.symm)]
    exact hres

/-- An instance of C9 (amended): the sample input reaches the limit 2, and so
does the sample input followed by `"\nxyz"`, with the same result. -/
theorem early_termination_witness :
    winnowing sample_crc 2 2 (fun _ => 0) (fun _ => 0) (sample_src ++ [10, 120, 121, 122])
      [0, 0] [0, 0] 2 = some (2, [33363, 3860], [2, 2]) :=
  early_termination sample_crc 2 2 (fun _ => 0) (fun _ => 0) sample_src [10, 120, 121, 122]
    [0, 0] [0, 0] 2 [33363, 3860] [2, 2] (by decide) (by decide) (by decide)

/-- C9 fails as stated: with `GRAM = WINDOW = 1` and limit 1 the input `"a"`
returns 1, the limit; followed by `2 ^ 32 - 1` more bytes `a`, `src_len` is 0
and the call returns 0 with nothing written. -/
theorem long_continuation_changes_result :
    winnowing sample_crc 1 1 (fun _ => 0) (fun _ => 0) [97] [0] [0] 1 =
      some (1, [3361], [1]) ∧
    winnowing sample_crc 1 1 (fun _ => 0) (fun _ => 0) ([97] ++ List.replicate 4294967295 97)
      [0] [0] 1 = some (0, [0], [0]) := by
  refine ⟨by decide, ?_⟩
  rw [List.singleton_append]
  exact winnowing_of_scanned_nil _ _ _ _ _ _ _ _ _
    (scanned_wrap 97 97 (by decide) (by decide))

/-! ## Writes stay inside the caller's arrays -/

theorem take_map_append_drop (e : List (Nat × Nat)) (f : Nat × Nat → Nat) (arr : List Nat)
    (limit : Nat) (h : e.length ≤ limit) :
    (e.map f ++ arr.drop e.length).take limit = e.map f ++ (arr.take limit).drop e.length := by
  rw [List.take_append_eq_append_take, List.take_of_length_le (by rw [List.length_map]; exact h),
    List.drop_take, List.length_map]

theorem Frame.raise_bound {hashes0 lines0 : List Nat} {k k1 counter : Nat} {hs ls : List Nat}
    (h : Frame hashes0 lines0 k counter hs ls) (hle : k ≤ k1) :
    Frame hashes0 lines0 k1 counter hs ls :=
  ⟨h.1.trans hle, h.2.1, h.2.2.1, h.2.2.2⟩

theorem add_hash_frame (crc : List Nat → Nat) (hash line : Nat) (hashes lines : List Nat)
    (last counter : Nat) (r : Nat × List Nat × List Nat × Nat) (hashes0 lines0 : List Nat)
    (k : Nat) (h : add_hash crc hash line hashes lines last counter = some r)
    (hf : Frame hashes0 lines0 k counter hashes lines) (hk : k + 1 < 4294967296) :
    Frame hashes0 lines0 (k + 1) r.2.2.2 r.2.1 r.2.2.1 := by
  obtain ⟨f1, f2, f3, f4⟩ := hf
  unfold add_hash at h
  split at h
  · split at h
    · cases h
    · rename_i hashes1 hstore1
      split at h
      · cases h
      · rename_i lines1 hstore2
        cases h
        unfold store at hstore1 hstore2
        split at hstore1
        · split at hstore2
          · cases hstore1
            cases hstore2
            have hu : u32 (counter + 1) = counter + 1 := Nat.mod_eq_of_lt (by omega)
            simp only []
            rw [hu]
            refine ⟨by omega, by rw [List.length_set]; exact f2,
              by rw [List.length_set]; exact f3, ?_⟩
            intro i hi
            rw [List.getElem?_set_ne (by omega), List.getElem?_set_ne (by omega)]
            exact f4 i (by omega)
          · cases hstore2
        · cases hstore1
  · cases h
    exact ⟨Nat.le_succ_of_le f1, f2, f3, f4⟩

theorem body_frame (crc : List Nat → Nat) (G W limit c : Nat) (s s1 : State) (brk : Bool)
    (hashes0 lines0 : List Nat) (k : Nat) (h : body crc G W limit c s = some (brk, s1))
    (hf : Frame hashes0 lines0 k s.counter s.hashes s.lines) (hk : k + 1 < 4294967296) :
    Frame hashes0 lines0 (k + 1) s1.counter s1.hashes s1.lines := by
  unfold body at h
  simp only [] at h
  by_cases hz : normalize c = 0
  · rw [if_pos hz] at h
    cases h
    by_cases hc : c = 10
    · rw [if_pos hc]
      exact hf.raise_bound (Nat.le_succ _)
    · rw [if_neg hc]
      exact hf.raise_bound (Nat.le_succ _)
  · have hc : c ≠ 10 := by
      intro e
      rw [e] at hz
      exact hz normalize_newline
    rw [if_neg hz, if_neg hc] at h
    exact (on_byte_transfer _ _ _ _ _ _ _ _ (Frame hashes0 lines0 (k + 1)) h
      (fun hash r hadd => add_hash_frame _ _ _ _ _ _ _ _ _ _ _ hadd hf hk)
      (hf.raise_bound (Nat.le_succ _))).1

theorem loop_frame (crc : List Nat → Nat) (G W limit : Nat) (hashes0 lines0 : List Nat) :
    ∀ (rest : List Nat) (s s1 : State) (k : Nat),
      loop crc G W limit rest s = some s1 →
      Frame hashes0 lines0 k s.counter s.hashes s.lines →
      k + rest.length < 4294967296 →
      Frame hashes0 lines0 (k + rest.length) s1.counter s1.hashes s1.lines := by
  intro rest
  induction rest with
  | nil =>
    intro s s1 k h hf _
    cases h
    exact hf
  | cons c rest ih =>
    intro s s1 k h hf hlen
    rw [List.length_cons] at hlen ⊢
    unfold loop at h
    split at h
    · cases h
    · rename_i s2 hb
      cases h
      exact (body_frame _ _ _ _ _ _ _ _ _ _ k hb hf (by omega)).raise_bound (by omega)
    · rename_i s2 hb
      have h2 := body_frame _ _ _ _ _ _ _ _ _ _ k hb hf (by omega)
      exact (ih s2 s1 (k + 1) h h2 (by omega)).raise_bound (by omega)

/-- C10. For `limit ≥ 1`: whatever the configuration and the arrays, a run of
`winnowing` that returns leaves the lengths of `hashes` and `lines` as they
were and every cell at an index `≥ count` with the value the caller supplied,
and `count ≤ limit`.  Under the call contract (`GRAM ≥ 1`, `WINDOW ≥ 1`, arrays
of at least `limit` cells) the routine returns, and it writes only at indices
below `limit`: run on the two arrays cut to exactly `limit` cells, where any
write at an index `≥ limit` would fall outside the array, it returns the same
count and the same cells. -/
theorem writes_within_limit (calc_crc32c : List Nat → Nat) (GRAM WINDOW : Nat)
    (junk_gram junk_window : Nat → Nat) (src hashes lines : List Nat) (limit : Nat)
    (hlimit : 1 ≤ limit) :
    (∀ count hs ls,
      winnowing calc_crc32c GRAM WINDOW junk_gram junk_window src hashes lines limit =
        some (count, hs, ls) →
      count ≤ limit ∧ hs.length = hashes.length ∧ ls.length = lines.length ∧
        ∀ i, count ≤ i → hs[i]? = hashes[i]? ∧ ls[i]? = lines[i]?) ∧
    (1 ≤ GRAM → 1 ≤ WINDOW → limit ≤ hashes.length → limit ≤ lines.length →
      ∃ count hs ls,
        winnowing calc_crc32c GRAM WINDOW junk_gram junk_window src hashes lines limit =
          some (count, hs, ls) ∧
        winnowing calc_crc32c GRAM WINDOW junk_gram junk_window src (hashes.take limit)
          (lines.take limit) limit = some (count, hs.take limit, ls.take limit)) := by
  constructor
  · intro count hs ls hres
    unfold winnowing at hres
    split at hres
    · cases hres
    · rename_i s1 hloop
      cases hres
      have hc := loop_counter _ _ _ _ _ _ _ hloop hlimit
      have hf := loop_frame calc_crc32c GRAM WINDOW limit hashes lines (scanned src) _ s1 0
        hloop ⟨Nat.le_refl _, rfl, rfl, fun _ _ => ⟨rfl, rfl⟩⟩
        (by rw [Nat.zero_add]; exact length_scanned src)
      exact ⟨hc, hf.2.1, hf.2.2.1, hf.2.2.2⟩
  · intro hG hW hhashes hlines
    have h1 := winnowing_eq_ref calc_crc32c GRAM WINDOW junk_gram junk_window src hashes
      lines limit hG hW hlimit hhashes hlines
    have h2 := winnowing_eq_ref calc_crc32c GRAM WINDOW junk_gram junk_window src
      (hashes.take limit) (lines.take limit) limit hG hW hlimit
      (by rw [List.length_take]; omega) (by rw [List.length_take]; omega)
    unfold ref_result at h1 h2
    simp only [] at h1 h2
    have hle : ((ref_emissions calc_crc32c GRAM WINDOW (scanned src)).take limit).length ≤
        limit := List.length_take_le _ _
    refine ⟨_, _, _, h1, ?_⟩
    rw [h2, take_map_append_drop _ _ _ _ hle, take_map_append_drop _ _ _ _ hle]

/-- An instance of C10: the sample run with limit 3 on arrays of 4 and 5 cells. -/
theorem writes_within_limit_witness :
    (∀ count hs ls,
      winnowing sample_crc 2 2 (fun _ => 0) (fun _ => 0) sample_src [0, 0, 0, 9] [0, 0, 0, 9, 9]
        3 = some (count, hs, ls) →
      count ≤ 3 ∧ hs.length = [0, 0, 0, 9].length ∧ ls.length = [0, 0, 0, 9, 9].length ∧
        ∀ i, count ≤ i → hs[i]? = [0, 0, 0, 9][i]? ∧ ls[i]? = [0, 0, 0, 9, 9][i]?) ∧
    (1 ≤ 2 → 1 ≤ 2 → 3 ≤ [0, 0, 0, 9].length → 3 ≤ [0, 0, 0, 9, 9].length →
      ∃ count hs ls,
        winnowing sample_crc 2 2 (fun _ => 0) (fun _ => 0) sample_src [0, 0, 0, 9]
          [0, 0, 0, 9, 9] 3 = some (count, hs, ls) ∧
        winnowing sample_crc 2 2 (fun _ => 0) (fun _ => 0) sample_src ([0, 0, 0, 9].take 3)
          ([0, 0, 0, 9, 9].take 3) 3 = some (count, hs.take 3, ls.take 3)) :=
  writes_within_limit sample_crc 2 2 (fun _ => 0) (fun _ => 0) sample_src [0, 0, 0, 9]
    [0, 0, 0, 9, 9] 3 (by decide)

/-! ## C11: the contract of `add_hash` -/

/-- C11. Contract of `add_hash(hash, line, hashes, lines, last, counter)`.  If
`hash = last` it returns `last` and leaves `counter`, `hashes` and `lines` as
they are.  If `hash ≠ last` (the index `counter` being inside both arrays) it
returns the raw `hash`, the counter incremented by one (as a `uint32_t`, which
is `counter + 1` unless `counter` is `MAX_UINT32`), `hashes[counter]` is the
checksum of the four raw bytes of `hash`, `lines[counter]` is `line`, and no
other cell of either array has changed. -/
theorem add_hash_contract (calc_crc32c : List Nat → Nat) (hash line : Nat)
    (hashes lines : List Nat) (last counter : Nat) :
    (hash = last →
      add_hash calc_crc32c hash line hashes lines last counter =
        some (last, hashes, lines, counter)) ∧
    (hash ≠ last → counter < hashes.length → counter < lines.length →
      ∃ hs ls,
        add_hash calc_crc32c hash line hashes lines last counter =
          some (hash, hs, ls, u32 (counter + 1)) ∧
        (counter < MAX_UINT32 → u32 (counter + 1) = counter + 1) ∧
        hs[counter]? = some (crc32 calc_crc32c (raw_bytes hash)) ∧
        ls[counter]? = some line ∧
        hs.length = hashes.length ∧ ls.length = lines.length ∧
        ∀ i, i ≠ counter → hs[i]? = hashes[i]? ∧ ls[i]? = lines[i]?) := by
  constructor
  · intro h
    unfold add_hash
    rw [if_neg (by simpa using h)]
  · intro hne hh hl
    refine ⟨hashes.set counter (crc32 calc_crc32c (raw_bytes hash)), lines.set counter line,
      ?_, ?_, ?_, ?_, ?_, ?_, ?_⟩
    · unfold add_hash
      rw [if_pos hne, store_eq_some _ _ _ hh, store_eq_some _ _ _ hl]
    · intro hc
      unfold u32
      unfold MAX_UINT32 at hc
      omega
    · rw [List.getElem?_set, if_pos rfl, if_pos hh]
    · rw [List.getElem?_set, if_pos rfl, if_pos hl]
    · rw [List.length_set]
    · rw [List.length_set]
    · intro i hi
      rw [List.getElem?_set, List.getElem?_set, if_neg (Ne.symm hi), if_neg (Ne.symm hi)]
      exact ⟨rfl, rfl⟩

/-- An instance of C11: the minimum 5 after `last = 3`, at counter 1 of arrays
of three cells. -/
theorem add_hash_contract_witness :
    (5 = 3 →
      add_hash sample_crc 5 7 [1, 2, 3] [4, 5, 6] 3 1 = some (3, [1, 2, 3], [4, 5, 6], 1)) ∧
    (5 ≠ 3 → 1 < [1, 2, 3].length → 1 < [4, 5, 6].length →
      ∃ hs ls,
        add_hash sample_crc 5 7 [1, 2, 3] [4, 5, 6] 3 1 = some (5, hs, ls, u32 (1 + 1)) ∧
        (1 < MAX_UINT32 → u32 (1 + 1) = 1 + 1) ∧
        hs[1]? = some (crc32 sample_crc (raw_bytes 5)) ∧
        ls[1]? = some 7 ∧
        hs.length = [1, 2, 3].length ∧ ls.length = [4, 5, 6].length ∧
        ∀ i, i ≠ 1 → hs[i]? = [1, 2, 3][i]? ∧ ls[i]? = [4, 5, 6][i]?) :=
  add_hash_contract sample_crc 5 7 [1, 2, 3] [4, 5, 6] 3 1

/-! ## Runs under limit 0 and under degenerate sizes -/

theorem on_window_zero_none (crc : List Nat → Nat) (W : Nat) (s : State)
    (h : on_window crc W 0 s = none) : on_window crc W 1 s = none := by
  unfold on_window at h ⊢
  split at h
  · rfl
  · split at h
    · rfl
    · simp only [] at h
      rw [if_pos (Nat.zero_le _)] at h
      cases h

theorem on_gram_zero_none (crc : List Nat → Nat) (G W : Nat) (s : State)
    (h : on_gram crc G W 0 s = none) : on_gram crc G W 1 s = none := by
  unfold on_gram at h ⊢
  split at h
  · rfl
  · split at h
    · rfl
    · simp only [] at h ⊢
      by_cases hfull : s.window_ptr + 1 ≥ W
      · rw [if_pos hfull] at h ⊢
        split at h
        · rename_i hw
          rw [on_window_zero_none _ _ _ hw]
        · cases h
        · rename_i hw
          have := (on_window_limit_zero _ _ _ _ _ hw).1
          cases this
      · rw [if_neg hfull] at h ⊢
        exact h

theorem on_byte_zero_none (crc : List Nat → Nat) (G W byte : Nat) (s : State)
    (h : on_byte crc G W 0 byte s = none) : on_byte crc G W 1 byte s = none := by
  unfold on_byte at h ⊢
  split at h
  · rfl
  · simp only [] at h ⊢
    by_cases hfull : s.gram_ptr + 1 ≥ G
    · rw [if_pos hfull] at h ⊢
      exact on_gram_zero_none _ _ _ _ h
    · rw [if_neg hfull] at h
      cases h

theorem body_zero_none (crc : List Nat → Nat) (G W c : Nat) (s : State)
    (h : body crc G W 0 c s = none) : body crc G W 1 c s = none := by
  unfold body at h ⊢
  simp only [] at h ⊢
  by_cases hz : normalize c = 0
  · rw [if_pos hz] at h
    cases h
  · rw [if_neg hz] at h ⊢
    exact on_byte_zero_none _ _ _ _ _ h

theorem loop_zero_none (crc : List Nat → Nat) (G W : Nat) :
    ∀ (rest : List Nat) (s : State), loop crc G W 0 rest s = none →
      loop crc G W 1 rest s = none := by
  intro rest
  induction rest with
  | nil =>
    intro s h
    cases h
  | cons c rest ih =>
    intro s h
    unfold loop at h ⊢
    split at h
    · rename_i hb
      rw [body_zero_none _ _ _ _ _ hb]
    · cases h
    · rename_i s2 hb
      rw [body_limit_zero _ _ _ _ _ _ _ hb (fun e => by cases e)]
      exact ih s2 h

/-- A run under limit 0 fails only where the run under limit 1 fails. -/
theorem winnowing_zero_none (crc : List Nat → Nat) (G W : Nat) (jg jw : Nat → Nat)
    (src hashes lines : List Nat)
    (h : winnowing crc G W jg jw src hashes lines 0 = none) :
    winnowing crc G W jg jw src hashes lines 1 = none := by
  unfold winnowing at h ⊢
  split at h
  · rename_i hloop
    rw [loop_zero_none _ _ _ _ _ hloop]
  · cases h

/-- Under limit 0, with `GRAM ≥ 1`, `WINDOW ≥ 1` and arrays of at least one
cell, the routine returns. -/
theorem winnowing_zero_total (crc : List Nat → Nat) (G W : Nat) (jg jw : Nat → Nat)
    (src hashes lines : List Nat) (hG : 1 ≤ G) (hW : 1 ≤ W)
    (hh : 1 ≤ hashes.length) (hl : 1 ≤ lines.length) :
    ∃ count hs ls, winnowing crc G W jg jw src hashes lines 0 = some (count, hs, ls) := by
  cases h : winnowing crc G W jg jw src hashes lines 0 with
  | some r => exact ⟨r.1, r.2.1, r.2.2, rfl⟩
  | none =>
    have h1 := winnowing_zero_none _ _ _ _ _ _ _ _ h
    rw [winnowing_eq_ref crc G W jg jw src hashes lines 1 hG hW (Nat.le_refl _) hh hl] at h1
    cases h1

/-! ## C12: out-of-range configurations -/

theorem ref_result_take (crc : List Nat → Nat) (G W : Nat) (p hashes lines : List Nat)
    (limit : Nat) :
    (ref_result crc G W p hashes lines limit).1 = ((ref_emissions crc G W p).take limit).length ∧
    (ref_result crc G W p hashes lines limit).2.1.take
        ((ref_emissions crc G W p).take limit).length =
      ((ref_emissions crc G W p).take limit).map Prod.fst ∧
    (ref_result crc G W p hashes lines limit).2.2.take
        ((ref_emissions crc G W p).take limit).length =
      ((ref_emissions crc G W p).take limit).map Prod.snd := by
  unfold ref_result
  exact ⟨rfl, List.take_left' (by rw [List.length_map]),
    List.take_left' (by rw [List.length_map])⟩

theorem strlen_append_nul (p t : List Nat) (h : 0 ∉ p) : strlen (p ++ 0 :: t) = p.length := by
  induction p with
  | nil =>
    rw [List.nil_append]
    unfold strlen
    rw [if_pos rfl]
    rfl
  | cons c rest ih =>
    have hc : c ≠ 0 := fun e => h (e ▸ List.mem_cons_self _ _)
    have hr : 0 ∉ rest := fun m => h (List.mem_cons_of_mem _ m)
    rw [List.cons_append]
    unfold strlen
    rw [if_neg hc, ih hr, List.length_cons]

theorem scanned_append_nul (p t : List Nat) (h : c_string p) : scanned (p ++ 0 :: t) = p := by
  unfold scanned u32
  rw [strlen_append_nul p t h.1, Nat.mod_eq_of_lt h.2, List.take_left]

/-- C14, as amended.  The input of `winnowing` is a NUL-terminated C string
whose length is taken by `strlen`: the first zero byte ends the scan and the
bytes after it contribute nothing.  For every NUL-free `p` (shorter than
`2 ^ 32` bytes) and every `t`, the call on `p ++ [0] ++ t` gives exactly what
the call on `p` gives. -/
theorem nul_ends_scan (calc_crc32c : List Nat → Nat) (GRAM WINDOW : Nat)
    (junk_gram junk_window : Nat → Nat) (p t hashes lines : List Nat) (limit : Nat)
    (hp : c_string p) :
    winnowing calc_crc32c GRAM WINDOW junk_gram junk_window (p ++ 0 :: t) hashes lines limit =
      winnowing calc_crc32c GRAM WINDOW junk_gram junk_window p hashes lines limit := by
  unfold winnowing
  rw [scanned_append_nul p t hp, scanned_of_c_string p hp]

/-- An instance of C14 (amended): `"a\0b"` and `"a"`. -/
theorem nul_ends_scan_witness :
    winnowing sample_crc 1 1 (fun _ => 0) (fun _ => 0) ([97] ++ 0 :: [98]) [0, 0] [0, 0] 2 =
      winnowing sample_crc 1 1 (fun _ => 0) (fun _ => 0) [97] [0, 0] [0, 0] 2 :=
  nul_ends_scan sample_crc 1 1 (fun _ => 0) (fun _ => 0) [97] [98] [0, 0] [0, 0] 2
    (by decide)

/-- C14 fails as stated: on `"a\0b"` (`GRAM = WINDOW = 1`) the scan ends at the
zero byte and one entry is produced, where the same input with a space in
place of the zero byte, a non-significant byte that does not end the scan,
produces two. -/
theorem nul_byte_stops_scan :
    winnowing sample_crc 1 1 (fun _ => 0) (fun _ => 0) [97, 0, 98] [0, 0] [0, 0] 2 =
      some (1, [3361, 0], [1, 0]) ∧
    winnowing sample_crc 1 1 (fun _ => 0) (fun _ => 0) [97, 32, 98] [0, 0] [0, 0] 2 =
      some (2, [3361, 33152], [1, 1]) := by
  decide

/-! ## C15: `smaller_hash` is the minimum -/

theorem mem_view_iff (buf : List Nat) (off len v : Nat) :
    v ∈ view buf off len ↔ ∃ h, h < len ∧ buf[off + h]? = some v := by
  rw [List.mem_iff_getElem?]
  constructor
  · rintro ⟨n, hn⟩
    rw [getElem?_view] at hn
    by_cases c : n < len
    · rw [if_pos c] at hn
      exact ⟨n, c, hn⟩
    · rw [if_neg c] at hn
      cases hn
  · rintro ⟨h, hlt, hv⟩
    refine ⟨h, ?_⟩
    rw [getElem?_view, if_pos hlt]
    exact hv

/-- C15. For `WINDOW ≥ 1` and a window of `WINDOW` values lying inside a buffer
of 32-bit values, `smaller_hash` returns the minimum of the window: a value
that is `≤ window[h]` for every `h < WINDOW` and equal to `window[h]` for some
`h < WINDOW`.  Values equal to the sentinel `MAX_UINT32` are allowed. -/
theorem smaller_hash_is_minimum (WINDOW : Nat) (window_buffer : List Nat) (window : Nat)
    (hW : 1 ≤ WINDOW) (hlen : window + WINDOW ≤ window_buffer.length)
    (h32 : ∀ v ∈ window_buffer, v ≤ MAX_UINT32) :
    ∃ m, smaller_hash WINDOW window_buffer window = some m ∧
      (∀ h v, h < WINDOW → window_buffer[window + h]? = some v → m ≤ v) ∧
      (∃ h, h < WINDOW ∧ window_buffer[window + h]? = some m) := by
  have hb : ∀ x ∈ view window_buffer window WINDOW, x ≤ MAX_UINT32 := by
    intro x hx
    obtain ⟨h, _, hv⟩ := (mem_view_iff _ _ _ _).1 hx
    exact h32 x (List.getElem?_mem hv)
  have hne : view window_buffer window WINDOW ≠ [] := by
    intro h0
    have := length_view window_buffer window WINDOW hlen
    rw [h0] at this
    simp at this
    omega
  refine ⟨list_min (view window_buffer window WINDOW),
    smaller_hash_spec WINDOW window_buffer window hW hlen hb, ?_, ?_⟩
  · intro h v hlt hv
    exact list_min_le _ v ((mem_view_iff _ _ _ _).2 ⟨h, hlt, hv⟩)
  · exact (mem_view_iff _ _ _ _).1 (list_min_mem _ hne)

/-- An instance of C15: a window of three values, one of them the sentinel,
at offset 1 of a buffer of five cells. -/
theorem smaller_hash_is_minimum_witness :
    ∃ m, smaller_hash 3 [1, 4294967295, 7, 9, 0] 1 = some m ∧
      (∀ h v, h < 3 → [1, 4294967295, 7, 9, 0][1 + h]? = some v → m ≤ v) ∧
      (∃ h, h < 3 ∧ [1, 4294967295, 7, 9, 0][1 + h]? = some m) :=
  smaller_hash_is_minimum 3 [1, 4294967295, 7, 9, 0] 1 (by decide) (by decide) (by decide)

/-! ## C16, C17: the amortised shifts -/

theorem shift_gram_detail (K k : Nat) (buf : List Nat) (hK : 1 ≤ K)
    (hlen : buf.length = K * BUFFER_RATE) (hk : k < (BUFFER_RATE - 1) * K) :
    ∃ buf1, shift_gram K k buf = some ((k + 1) % ((BUFFER_RATE - 1) * K), buf1) ∧
      buf1.length = buf.length ∧
      (k + 1 < (BUFFER_RATE - 1) * K → buf1 = buf) ∧
      ∀ i, i < K - 1 →
        ∃ v, buf1[(k + 1) % ((BUFFER_RATE - 1) * K) + i]? = some v ∧
          buf[k + (i + 1)]? = some v := by
  have e3 : (BUFFER_RATE - 1) * K = 3 * K := rfl
  have e4 : K * BUFFER_RATE = K * 4 := rfl
  rw [e3] at hk ⊢
  rw [e4] at hlen
  have ed : dec K = K - 1 := by
    unfold dec
    rw [if_neg (by omega)]
  by_cases h : k + 1 ≥ 3 * K
  · have hk3 : k + 1 = 3 * K := by omega
    have h0 : k + 1 - 3 * K = 0 := by omega
    have hm : (k + 1) % (3 * K) = 0 := by rw [hk3, Nat.mod_self]
    obtain ⟨buf1, h1, h2, h3⟩ := copy_loop_spec 0 (3 * K) (K - 1) 0 buf (by omega) (by omega)
    rw [hm]
    refine ⟨buf1, ?_, h2, fun hlt => absurd hlt (by omega), ?_⟩
    · simp only [shift_gram, e3, ed, if_pos h, h0, h1]
    · intro i hi
      have hi4 : k + (i + 1) < buf.length := by omega
      refine ⟨buf[k + (i + 1)], ?_, List.getElem?_eq_getElem hi4⟩
      have c1 : 0 + 0 ≤ 0 + i ∧ 0 + i < 0 + 0 + (K - 1) := by omega
      rw [h3, if_pos c1, ← List.getElem?_eq_getElem hi4]
      congr 1
      omega
  · have hm : (k + 1) % (3 * K) = k + 1 := Nat.mod_eq_of_lt (by omega)
    rw [hm]
    refine ⟨buf, ?_, rfl, fun _ => rfl, ?_⟩
    · simp only [shift_gram, e3, if_neg h]
    · intro i hi
      have hi4 : k + (i + 1) < buf.length := by omega
      refine ⟨buf[k + (i + 1)], ?_, List.getElem?_eq_getElem hi4⟩
      rw [← List.getElem?_eq_getElem hi4]
      congr 1
      omega

/-- C16. For `GRAM ≥ 1`, a gram buffer of `GRAM * BUFFER_RATE` bytes and a gram
view at offset `k < (BUFFER_RATE - 1) * GRAM`: `shift_gram` returns the view at
offset `(k + 1) mod ((BUFFER_RATE - 1) * GRAM)`, the buffer is left as it is
unless `k + 1` reaches `(BUFFER_RATE - 1) * GRAM` (the copy-back), and in both
cases `new[i] = old[i + 1]` for every `i < GRAM - 1`. -/
theorem shift_gram_view (GRAM : Nat) (gram_buffer : List Nat) (k : Nat) (hG : 1 ≤ GRAM)
    (hlen : gram_buffer.length = GRAM * BUFFER_RATE) (hk : k < (BUFFER_RATE - 1) * GRAM) :
    ∃ buf1,
      shift_gram GRAM k gram_buffer = some ((k + 1) % ((BUFFER_RATE - 1) * GRAM), buf1) ∧
      buf1.length = gram_buffer.length ∧
      (k + 1 < (BUFFER_RATE - 1) * GRAM → buf1 = gram_buffer) ∧
      ∀ i, i < GRAM - 1 →
        ∃ v, buf1[(k + 1) % ((BUFFER_RATE - 1) * GRAM) + i]? = some v ∧
          gram_buffer[k + (i + 1)]? = some v :=
  shift_gram_detail GRAM k gram_buffer hG hlen hk

/-- An instance of C16: `GRAM = 2`, the view at offset 5 of a buffer of eight
bytes, where the shift copies back. -/
theorem shift_gram_view_witness :
    ∃ buf1,
      shift_gram 2 5 [1, 2, 3, 4, 5, 6, 7, 8] =
        some ((5 + 1) % ((BUFFER_RATE - 1) * 2), buf1) ∧
      buf1.length = [1, 2, 3, 4, 5, 6, 7, 8].length ∧
      (5 + 1 < (BUFFER_RATE - 1) * 2 → buf1 = [1, 2, 3, 4, 5, 6, 7, 8]) ∧
      ∀ i, i < 2 - 1 →
        ∃ v, buf1[(5 + 1) % ((BUFFER_RATE - 1) * 2) + i]? = some v ∧
          [1, 2, 3, 4, 5, 6, 7, 8][5 + (i + 1)]? = some v :=
  shift_gram_view 2 [1, 2, 3, 4, 5, 6, 7, 8] 5 (by decide) (by decide) (by decide)

/-- C17. For `WINDOW ≥ 1`, a window buffer of `WINDOW * BUFFER_RATE` values and
a window view at offset `k < (BUFFER_RATE - 1) * WINDOW`: `shift_window`
returns the view at offset `(k + 1) mod ((BUFFER_RATE - 1) * WINDOW)`, the
buffer is left as it is unless `k + 1` reaches `(BUFFER_RATE - 1) * WINDOW`,
and in both cases `new[i] = old[i + 1]` for every `i < WINDOW - 1`. -/
theorem shift_window_view (WINDOW : Nat) (window_buffer : List Nat) (k : Nat)
    (hW : 1 ≤ WINDOW) (hlen : window_buffer.length = WINDOW * BUFFER_RATE)
    (hk : k < (BUFFER_RATE - 1) * WINDOW) :
    ∃ buf1,
      shift_window WINDOW k window_buffer =
        some ((k + 1) % ((BUFFER_RATE - 1) * WINDOW), buf1) ∧
      buf1.length = window_buffer.length ∧
      (k + 1 < (BUFFER_RATE - 1) * WINDOW → buf1 = window_buffer) ∧
      ∀ i, i < WINDOW - 1 →
        ∃ v, buf1[(k + 1) % ((BUFFER_RATE - 1) * WINDOW) + i]? = some v ∧
          window_buffer[k + (i + 1)]? = some v :=
  shift_gram_detail WINDOW k window_buffer hW hlen hk

/-- An instance of C17: `WINDOW = 3`, the view at offset 2 of a buffer of twelve
values, a plain shift. -/
theorem shift_window_view_witness :
    ∃ buf1,
      shift_window 3 2 [10, 11, 12, 13, 14, 15, 16, 17, 18, 19, 20, 21] =
        some ((2 + 1) % ((BUFFER_RATE - 1) * 3), buf1) ∧
      buf1.length = [10, 11, 12, 13, 14, 15, 16, 17, 18, 19, 20, 21].length ∧
      (2 + 1 < (BUFFER_RATE - 1) * 3 →
        buf1 = [10, 11, 12, 13, 14, 15, 16, 17, 18, 19, 20, 21]) ∧
      ∀ i, i < 3 - 1 →
        ∃ v, buf1[(2 + 1) % ((BUFFER_RATE - 1) * 3) + i]? = some v ∧
          [10, 11, 12, 13, 14, 15, 16, 17, 18, 19, 20, 21][2 + (i + 1)]? = some v :=
  shift_window_view 3 [10, 11, 12, 13, 14, 15, 16, 17, 18, 19, 20, 21] 2 (by decide)
    (by decide) (by decide)

/-! ## C18: the accesses to the two buffers stay in bounds -/

theorem store_length (buf : List Nat) (i v : Nat) (buf1 : List Nat)
    (h : store buf i v = some buf1) : buf1.length = buf.length := by
  unfold store at h
  split at h
  · cases h
    rw [List.length_set]
  · cases h

theorem copy_loop_length (base k : Nat) :
    ∀ (n i : Nat) (buf buf1 : List Nat), copy_loop base k n i buf = some buf1 →
      buf1.length = buf.length := by
  intro n
  induction n with
  | zero =>
    intro i buf buf1 h
    cases h
    rfl
  | succ n ih =>
    intro i buf buf1 h
    unfold copy_loop at h
    split at h
    · cases h
    · split at h
      · cases h
      · rename_i b2 hst
        rw [ih _ _ _ h, store_length _ _ _ _ hst]

theorem shift_gram_length (K off : Nat) (buf : List Nat) (off1 : Nat) (buf1 : List Nat)
    (h : shift_gram K off buf = some (off1, buf1)) : buf1.length = buf.length := by
  unfold shift_gram at h
  simp only [] at h
  split at h
  · split at h
    · cases h
    · rename_i b2 hc
      cases h
      exact copy_loop_length _ _ _ _ _ _ hc
  · cases h
    rfl

theorem on_window_lengths (crc : List Nat → Nat) (W limit : Nat) (s s1 : State) (brk : Bool)
    (h : on_window crc W limit s = some (brk, s1)) :
    s1.gram_buffer.length = s.gram_buffer.length ∧
      s1.window_buffer.length = s.window_buffer.length := by
  unfold on_window at h
  split at h
  · cases h
  · split at h
    · cases h
    · simp only [] at h
      split at h
      · cases h
        exact ⟨rfl, rfl⟩
      · split at h
        · cases h
        · rename_i w wb hsh
          cases h
          exact ⟨rfl, shift_gram_length _ _ _ _ _ hsh⟩

theorem on_gram_lengths (crc : List Nat → Nat) (G W limit : Nat) (s s1 : State) (brk : Bool)
    (h : on_gram crc G W limit s = some (brk, s1)) :
    s1.gram_buffer.length = s.gram_buffer.length ∧
      s1.window_buffer.length = s.window_buffer.length := by
  unfold on_gram at h
  split at h
  · cases h
  · split at h
    · cases h
    · rename_i wb hst
      have hwb := store_length _ _ _ _ hst
      simp only [] at h
      have hstep : ∀ brk2 s2,
          (if s.window_ptr + 1 ≥ W then
            on_window crc W limit
              { s with window_buffer := wb, window_ptr := s.window_ptr + 1 }
           else some (false, { s with window_buffer := wb, window_ptr := s.window_ptr + 1 })) =
            some (brk2, s2) →
          s2.gram_buffer.length = s.gram_buffer.length ∧
            s2.window_buffer.length = s.window_buffer.length := by
        intro brk2 s2 hw
        split at hw
        · obtain ⟨e1, e2⟩ := on_window_lengths _ _ _ _ _ _ hw
          exact ⟨e1, e2.trans hwb⟩
        · cases hw
          exact ⟨rfl, hwb⟩
      split at h
      · cases h
      · rename_i s2 hw
        cases h
        exact hstep _ _ hw
      · rename_i s2 hw
        obtain ⟨e1, e2⟩ := hstep _ _ hw
        split at h
        · cases h
        · rename_i g gb hsh
          cases h
          exact ⟨(shift_gram_length _ _ _ _ _ hsh).trans e1, e2⟩

theorem on_byte_lengths (crc : List Nat → Nat) (G W limit byte : Nat) (s s1 : State)
    (brk : Bool) (h : on_byte crc G W limit byte s = some (brk, s1)) :
    s1.gram_buffer.length = s.gram_buffer.length ∧
      s1.window_buffer.length = s.window_buffer.length := by
  unfold on_byte at h
  split at h
  · cases h
  · rename_i gb hst
    have hgb := store_length _ _ _ _ hst
    simp only [] at h
    split at h
    · obtain ⟨e1, e2⟩ := on_gram_lengths _ _ _ _ _ _ _ h
      exact ⟨e1.trans hgb, e2⟩
    · cases h
      exact ⟨hgb, rfl⟩

/-- Every iteration of the loop leaves the sizes of the two buffers as they are. -/
theorem body_lengths (crc : List Nat → Nat) (G W limit c : Nat) (s s1 : State) (brk : Bool)
    (h : body crc G W limit c s = some (brk, s1)) :
    s1.gram_buffer.length = s.gram_buffer.length ∧
      s1.window_buffer.length = s.window_buffer.length := by
  unfold body at h
  simp only [] at h
  by_cases hz : normalize c = 0
  · rw [if_pos hz] at h
    cases h
    by_cases hc : c = 10
    · rw [if_pos hc]
      exact ⟨rfl, rfl⟩
    · rw [if_neg hc]
      exact ⟨rfl, rfl⟩
  · have hc : c ≠ 10 := by
      intro e
      rw [e] at hz
      exact hz normalize_newline
    rw [if_neg hz, if_neg hc] at h
    exact on_byte_lengths _ _ _ _ _ _ _ _ h

/-- C18. For `GRAM ≥ 1`, `WINDOW ≥ 1` and every input, limit and arrays.  In
the model every access to `gram_buffer` and to `window_buffer` is checked
against the size of the block, and an access outside makes the run `none`.
The two blocks are allocated with `GRAM * BUFFER_RATE` and
`WINDOW * BUFFER_RATE` cells, every iteration of the loop leaves these sizes
as they are, and no access falls outside: a run fails only when the caller's
arrays have no room for an entry, and with arrays of at least `max limit 1`
cells it returns. -/
theorem buffer_accesses_in_bounds (calc_crc32c : List Nat → Nat) (GRAM WINDOW : Nat)
    (junk_gram junk_window : Nat → Nat) (src hashes lines : List Nat) (limit : Nat)
    (hG : 1 ≤ GRAM) (hW : 1 ≤ WINDOW) :
    ((init GRAM WINDOW junk_gram junk_window hashes lines).gram_buffer.length =
        GRAM * BUFFER_RATE ∧
      (init GRAM WINDOW junk_gram junk_window hashes lines).window_buffer.length =
        WINDOW * BUFFER_RATE) ∧
    (∀ c s brk s1, body calc_crc32c GRAM WINDOW limit c s = some (brk, s1) →
      s1.gram_buffer.length = s.gram_buffer.length ∧
        s1.window_buffer.length = s.window_buffer.length) ∧
    (winnowing calc_crc32c GRAM WINDOW junk_gram junk_window src hashes lines limit = none →
      ¬ (((ref_emissions calc_crc32c GRAM WINDOW (scanned src)).take (max limit 1)).length ≤
            hashes.length ∧
          ((ref_emissions calc_crc32c GRAM WINDOW (scanned src)).take (max limit 1)).length ≤
            lines.length)) ∧
    (max limit 1 ≤ hashes.length → max limit 1 ≤ lines.length →
      ∃ count hs ls,
        winnowing calc_crc32c GRAM WINDOW junk_gram junk_window src hashes lines limit =
          some (count, hs, ls)) := by
  have key : winnowing calc_crc32c GRAM WINDOW junk_gram junk_window src hashes lines limit =
        none →
      ¬ (((ref_emissions calc_crc32c GRAM WINDOW (scanned src)).take (max limit 1)).length ≤
            hashes.length ∧
          ((ref_emissions calc_crc32c GRAM WINDOW (scanned src)).take (max limit 1)).length ≤
            lines.length) := by
    intro hnone hcap
    by_cases hl : limit = 0
    · subst hl
      have h1 := winnowing_zero_none _ _ _ _ _ _ _ _ hnone
      have hm : max 0 1 = 1 := rfl
      rw [hm] at hcap
      rw [(winnowing_char calc_crc32c GRAM WINDOW junk_gram junk_window src hashes lines 1
        hG hW (Nat.le_refl _)).1 hcap] at h1
      cases h1
    · have hm : max limit 1 = limit := Nat.max_eq_left (by omega)
      rw [hm] at hcap
      rw [(winnowing_char calc_crc32c GRAM WINDOW junk_gram junk_window src hashes lines limit
        hG hW (by omega)).1 hcap] at hnone
      cases hnone
  refine ⟨⟨length_malloc _ _, length_malloc _ _⟩,
    fun c s brk s1 h => body_lengths _ _ _ _ _ _ _ _ h, key, ?_⟩
  intro hh hl
  cases h : winnowing calc_crc32c GRAM WINDOW junk_gram junk_window src hashes lines limit with
  | some r => exact ⟨r.1, r.2.1, r.2.2, rfl⟩
  | none =>
    exfalso
    refine key h ⟨?_, ?_⟩
    · exact Nat.le_trans (List.length_take_le _ _) hh
    · exact Nat.le_trans (List.length_take_le _ _) hl

/-- An instance of C18: the sample run with `GRAM = WINDOW = 2`, limit 3. -/
theorem buffer_accesses_in_bounds_witness :
    ((init 2 2 (fun _ => 0) (fun _ => 0) [0, 0, 0] [0, 0, 0]).gram_buffer.length =
        2 * BUFFER_RATE ∧
      (init 2 2 (fun _ => 0) (fun _ => 0) [0, 0, 0] [0, 0, 0]).window_buffer.length =
        2 * BUFFER_RATE) ∧
    (∀ c s brk s1, body sample_crc 2 2 3 c s = some (brk, s1) →
      s1.gram_buffer.length = s.gram_buffer.length ∧
        s1.window_buffer.length = s.window_buffer.length) ∧
    (winnowing sample_crc 2 2 (fun _ => 0) (fun _ => 0) sample_src [0, 0, 0] [0, 0, 0] 3 =
        none →
      ¬ (((ref_emissions sample_crc 2 2 (scanned sample_src)).take (max 3 1)).length ≤
            [0, 0, 0].length ∧
          ((ref_emissions sample_crc 2 2 (scanned sample_src)).take (max 3 1)).length ≤
            [0, 0, 0].length)) ∧
    (max 3 1 ≤ [0, 0, 0].length → max 3 1 ≤ [0, 0, 0].length →
      ∃ count hs ls,
        winnowing sample_crc 2 2 (fun _ => 0) (fun _ => 0) sample_src [0, 0, 0] [0, 0, 0] 3 =
          some (count, hs, ls)) :=
  buffer_accesses_in_bounds sample_crc 2 2 (fun _ => 0) (fun _ => 0) sample_src [0, 0, 0]
    [0, 0, 0] 3 (by decide) (by decide)

/-! ## C19: no more entries than complete windows -/

theorem length_ref_emissions_le_windows (crc : List Nat → Nat) (G W : Nat) (hW : 1 ≤ W)
    (p : List Nat) :
    (ref_emissions crc G W p).length ≤ (ref_bytes p).length + 2 - G - W := by
  have h1 : (ref_emissions crc G W p).length ≤ (ref_windows crc G W p).length :=
    length_ref_walk_le crc _ 0
  have h2 : (ref_windows crc G W p).length ≤ (ref_mins crc G W p).length := by
    unfold ref_windows
    rw [List.length_zip]
    exact Nat.min_le_left _ _
  have h3 := length_ref_mins crc G W p
  omega

/-- C19. For `GRAM ≥ 1`, `WINDOW ≥ 1`, `limit ≥ 1` and an input with `n`
significant bytes, a count returned by `winnowing` is at most
`n + 2 - GRAM - WINDOW` (truncated at 0), the number of complete windows; it is
0 when `n < GRAM + WINDOW - 1`; and with arrays of at least `limit` cells the
routine does return such a count. -/
theorem count_le_windows (calc_crc32c : List Nat → Nat) (GRAM WINDOW : Nat)
    (junk_gram junk_window : Nat → Nat) (src hashes lines : List Nat) (limit : Nat)
    (hG : 1 ≤ GRAM) (hW : 1 ≤ WINDOW) (hlimit : 1 ≤ limit) :
    (∀ count hs ls,
      winnowing calc_crc32c GRAM WINDOW junk_gram junk_window src hashes lines limit =
        some (count, hs, ls) →
      count ≤ (ref_bytes src).length + 2 - GRAM - WINDOW ∧
        ((ref_bytes src).length < GRAM + WINDOW - 1 → count = 0)) ∧
    (limit ≤ hashes.length → limit ≤ lines.length →
      ∃ count hs ls,
        winnowing calc_crc32c GRAM WINDOW junk_gram junk_window src hashes lines limit =
          some (count, hs, ls) ∧
        count ≤ (ref_bytes src).length + 2 - GRAM - WINDOW) := by
  have key : ∀ count hs ls,
      winnowing calc_crc32c GRAM WINDOW junk_gram junk_window src hashes lines limit =
        some (count, hs, ls) →
      count ≤ (ref_bytes src).length + 2 - GRAM - WINDOW := by
    intro count hs ls hres
    have h := winnowing_some_eq_ref calc_crc32c GRAM WINDOW junk_gram junk_window src hashes
      lines limit _ hG hW hlimit hres
    have hc : count = ((ref_emissions calc_crc32c GRAM WINDOW (scanned src)).take limit).length :=
      congrArg Prod.fst h
    have h1 : ((ref_emissions calc_crc32c GRAM WINDOW (scanned src)).take limit).length ≤
        (ref_emissions calc_crc32c GRAM WINDOW (scanned src)).length := by
      rw [List.length_take]
      exact Nat.min_le_right _ _
    have h2 := length_ref_emissions_le_windows calc_crc32c GRAM WINDOW hW (scanned src)
    have h3 := length_ref_bytes_scanned src
    omega
  refine ⟨?_, ?_⟩
  · intro count hs ls hres
    have hk := key count hs ls hres
    refine ⟨hk, ?_⟩
    intro hn
    omega
  · intro hh hl
    obtain ⟨count, hs, ls, hres⟩ := winnowing_total calc_crc32c GRAM WINDOW junk_gram
      junk_window src hashes lines limit hG hW hlimit hh hl
    exact ⟨count, hs, ls, hres, key count hs ls hres⟩

/-- An instance of C19: the sample input has 6 significant bytes, so at most
`6 + 2 - 2 - 2 = 4` entries with `GRAM = WINDOW = 2`. -/
theorem count_le_windows_witness :
    (∀ count hs ls,
      winnowing sample_crc 2 2 (fun _ => 0) (fun _ => 0) sample_src [0, 0, 0, 0, 0]
        [0, 0, 0, 0, 0] 5 = some (count, hs, ls) →
      count ≤ (ref_bytes sample_src).length + 2 - 2 - 2 ∧
        ((ref_bytes sample_src).length < 2 + 2 - 1 → count = 0)) ∧
    (5 ≤ [0, 0, 0, 0, 0].length → 5 ≤ [0, 0, 0, 0, 0].length →
      ∃ count hs ls,
        winnowing sample_crc 2 2 (fun _ => 0) (fun _ => 0) sample_src [0, 0, 0, 0, 0]
          [0, 0, 0, 0, 0] 5 = some (count, hs, ls) ∧
        count ≤ (ref_bytes sample_src).length + 2 - 2 - 2) :=
  count_le_windows sample_crc 2 2 (fun _ => 0) (fun _ => 0) sample_src [0, 0, 0, 0, 0]
    [0, 0, 0, 0, 0] 5 (by decide) (by decide) (by decide)

/-! ## C20: lowering the limit truncates the result -/

theorem take_take_emissions (e : List (Nat × Nat)) (L L2 : Nat) (h : L ≤ L2) :
    (e.take L2).take (e.take L).length = e.take L := by
  rw [List.take_take, List.length_take]
  have h1 : min (min L e.length) L2 = min L e.length := by omega
  rw [h1, take_min_length]

/-- C20. For `GRAM ≥ 1`, `WINDOW ≥ 1` and limits `1 ≤ L ≤ L2`: when
`winnowing` with limit `L2` returns `(c2, hs2, ls2)`, `winnowing` with limit
`L` on the same input and arrays returns the count `min L c2`, and its first
`min L c2` hashes and lines are the first `min L c2` cells of `hs2` and
`ls2`. -/
theorem limit_monotone (calc_crc32c : List Nat → Nat) (GRAM WINDOW : Nat)
    (junk_gram junk_window junk_gram2 junk_window2 : Nat → Nat)
    (src hashes lines : List Nat) (L L2 c2 : Nat) (hs2 ls2 : List Nat)
    (hG : 1 ≤ GRAM) (hW : 1 ≤ WINDOW) (hL : 1 ≤ L) (hLL : L ≤ L2)
    (hres : winnowing calc_crc32c GRAM WINDOW junk_gram2 junk_window2 src hashes lines L2 =
      some (c2, hs2, ls2)) :
    ∃ hs ls,
      winnowing calc_crc32c GRAM WINDOW junk_gram junk_window src hashes lines L =
        some (min L c2, hs, ls) ∧
      hs.take (min L c2) = hs2.take (min L c2) ∧
      ls.take (min L c2) = ls2.take (min L c2) := by
  have hchar2 := winnowing_char calc_crc32c GRAM WINDOW junk_gram2 junk_window2 src hashes
    lines L2 hG hW (by omega)
  have hcap2 : ((ref_emissions calc_crc32c GRAM WINDOW (scanned src)).take L2).length ≤
        hashes.length ∧
      ((ref_emissions calc_crc32c GRAM WINDOW (scanned src)).take L2).length ≤
        lines.length := by
    by_contra hn
    rw [hchar2.2 hn] at hres
    cases hres
  have hle : ((ref_emissions calc_crc32c GRAM WINDOW (scanned src)).take L).length ≤
      ((ref_emissions calc_crc32c GRAM WINDOW (scanned src)).take L2).length := by
    rw [List.length_take, List.length_take]
    omega
  have h1 := (winnowing_char calc_crc32c GRAM WINDOW junk_gram junk_window src hashes
    lines L hG hW hL).1 ⟨by omega, by omega⟩
  have h2 := winnowing_some_eq_ref calc_crc32c GRAM WINDOW junk_gram2 junk_window2 src hashes
    lines L2 _ hG hW (by omega) hres
  obtain ⟨a1, a2, a3⟩ := ref_result_take calc_crc32c GRAM WINDOW (scanned src) hashes
    lines L
  obtain ⟨b1, b2, b3⟩ := ref_result_take calc_crc32c GRAM WINDOW (scanned src) hashes
    lines L2
  rw [← h2] at b1 b2 b3
  simp only [] at b1 b2 b3
  have hc : min L c2 =
      ((ref_emissions calc_crc32c GRAM WINDOW (scanned src)).take L).length := by
    rw [b1, List.length_take, List.length_take]
    omega
  have t2 : ∀ (l : List Nat) (f : Nat × Nat → Nat),
      l.take ((ref_emissions calc_crc32c GRAM WINDOW (scanned src)).take L2).length =
        ((ref_emissions calc_crc32c GRAM WINDOW (scanned src)).take L2).map f →
      l.take ((ref_emissions calc_crc32c GRAM WINDOW (scanned src)).take L).length =
        ((ref_emissions calc_crc32c GRAM WINDOW (scanned src)).take L).map f := by
    intro l f hl
    have e := congrArg
      (List.take ((ref_emissions calc_crc32c GRAM WINDOW (scanned src)).take L).length) hl
    rw [List.take_take, Nat.min_eq_left hle, ← List.map_take,
      take_take_emissions _ L L2 hLL] at e
    exact e
  refine ⟨(ref_result calc_crc32c GRAM WINDOW (scanned src) hashes lines L).2.1,
    (ref_result calc_crc32c GRAM WINDOW (scanned src) hashes lines L).2.2, ?_, ?_, ?_⟩
  · rw [h1]
    exact congrArg some (Prod.ext (a1.trans hc.symm) rfl)
  · rw [hc, a2, t2 hs2 Prod.fst b2]
  · rw [hc, a3, t2 ls2 Prod.snd b3]

/-- An instance of C20: the sample run with limits 2 and 3. -/
theorem limit_monotone_witness :
    ∃ hs ls,
      winnowing sample_crc 2 2 (fun _ => 0) (fun _ => 0) sample_src [0, 0, 0] [0, 0, 0] 2 =
        some (min 2 3, hs, ls) ∧
      hs.take (min 2 3) = [33363, 3860, 39878].take (min 2 3) ∧
      ls.take (min 2 3) = [2, 2, 3].take (min 2 3) :=
  limit_monotone sample_crc 2 2 (fun _ => 0) (fun _ => 0) (fun _ => 0) (fun _ => 0)
    sample_src [0, 0, 0] [0, 0, 0] 2 3 3 [33363, 3860, 39878] [2, 2, 3]
    (by decide) (by decide) (by decide) (by decide) (by decide)

end Winnowing
